import Mathlib

/-!
# Verification of the Beave_Transformer core (`beaver/model`)

Shallow embedding of `src/beaver/model/embeddings.py` and
`src/beaver/model/transformer.py` over the real numbers.

Modelling conventions:
* A feature vector is a `List ℝ`; a sequence of positions is a `List (List ℝ)`
  (rows = positions, row entries = features).  The batch dimension is omitted:
  every operation of the source acts independently on each batch row
  (attention, layer norm, masks and the feed-forward block never mix batch
  rows), so all statements are per batch row.
* Stochastic dropout is modelled by an explicit elementwise function
  `drop : ℝ → ℝ` carried by each module (`id` = dropout disabled / inference).
* Learned weights are explicit parameters (the source draws them randomly at
  construction; randomness is external to this model).
* Fallible tensor operations return `Except ModelError _`.  The source raises
  Python exceptions at the corresponding places:
  `maskIsNone` models the `AttributeError` raised by `mask.unsqueeze(1)` in
  `MultiHeadedAttention.forward` when `mask` is `None`; `shapeMismatch`
  models broadcasting/size `RuntimeError`s; `zeroDivision` models
  `ZeroDivisionError` (`model_dim // head_count` with `head_count = 0`).
-/

noncomputable section

/-- Errors a forward call of the source can raise (as Python exceptions). -/
inductive ModelError where
  | maskIsNone : ModelError
  | shapeMismatch : ModelError
  | zeroDivision : ModelError
deriving DecidableEq

/-- `true` iff an `Except` computation did not raise. -/
def isOkE {ε α : Type _} : Except ε α → Bool
  | .ok _ => true
  | .error _ => false

/-- Dot product of two feature vectors (truncates to the shorter one,
like `torch.matmul` on well-shaped inputs). -/
def dotL (a b : List ℝ) : ℝ := (List.zipWith (· * ·) a b).sum

/-- `torch.nn.Linear` applied to one feature vector: `y = W·x + b`
with `W : out_features × in_features`. -/
def linearRow (W : List (List ℝ)) (b : List ℝ) (x : List ℝ) : List ℝ :=
  List.zipWith (fun w bi => dotL w x + bi) W b

/-- Weights of one `torch.nn.Linear` module. -/
structure LinearCfg where
  W : List (List ℝ)
  b : List ℝ

def LinearCfg.apply (l : LinearCfg) (x : List ℝ) : List ℝ := linearRow l.W l.b x

/-- A linear module mapped over every position of a sequence. -/
def LinearCfg.applySeq (l : LinearCfg) (m : List (List ℝ)) : List (List ℝ) :=
  m.map l.apply

/-- `A · Bᵀ` where both matrices are given as lists of rows. -/
def matMulT (A B : List (List ℝ)) : List (List ℝ) :=
  A.map (fun ar => B.map (fun br => dotL ar br))

/-- Transpose of a matrix whose rows have length `n`. -/
def transposeL (n : ℕ) (m : List (List ℝ)) : List (List ℝ) :=
  (List.range n).map (fun j => m.map (fun r => r.getD j 0))

/-- Elementwise sum of two sequences (`x + dropout(y)` residual adds). -/
def seqAdd (a b : List (List ℝ)) : List (List ℝ) :=
  List.zipWith (List.zipWith (· + ·)) a b

/-- An elementwise map (dropout, scaling) over a whole sequence. -/
def dropSeq (d : ℝ → ℝ) (m : List (List ℝ)) : List (List ℝ) :=
  m.map (fun r => r.map d)

/-! ## `embeddings.py` -/

/-- Entry `(p, c)` of the table built by `positional_encoding_2`: even
column `c` holds `sin(p · exp(c · (−ln 10000 / dim)))`, odd column `c`
holds `cos` with the factor of column `c − 1`
(`pe[:, 0::2] = sin(position * div_term)`, `pe[:, 1::2] = cos(...)`,
`div_term = exp(arange(0, dim, 2) * -(log(10000.0) / dim))`). -/
def peEntry (dim p c : ℕ) : ℝ :=
  if c % 2 = 0 then
    Real.sin ((p : ℝ) * Real.exp ((c : ℝ) * -(Real.log 10000 / (dim : ℝ))))
  else
    Real.cos ((p : ℝ) * Real.exp (((c : ℝ) - 1) * -(Real.log 10000 / (dim : ℝ))))

/-- `positional_encoding_2(dim, max_len)` (the variant `Embedding.__init__`
uses): the `max_len × dim` sinusoidal table, row `p` column `c` = `peEntry`.
A pure function of `(dim, max_len)`, hence deterministic.
The translation assumes `dim` even: for odd `dim` the source's
`pe[:, 1::2]` assignment raises a shape error, and every claim about the
table restricts to even dimensions. -/
def positional_encoding_2 (dim max_len : ℕ) : List (List ℝ) :=
  (List.range max_len).map (fun p => (List.range dim).map (peEntry dim p))

/-- State of an `Embedding` module.  `weight` is the learned token table
(`nn.Embedding(vocab_size, embedding_dim)`), `pe` the positional buffer. -/
structure Embedding where
  embedding_dim : ℕ
  vocab_size : ℕ
  word_padding_idx : ℕ
  weight : ℕ → ℕ → ℝ
  pe : List (List ℝ)
  drop : ℝ → ℝ

/-- `Embedding.__init__(embedding_dim, vocab_size, padding_idx, dropout)`:
note the constructor exposes no `max_len` argument, so the positional buffer
is always `positional_encoding_2(embedding_dim)` with the default
`max_len = 5000`. -/
def Embedding.init (embedding_dim vocab_size padding_idx : ℕ)
    (weight : ℕ → ℕ → ℝ) (drop : ℝ → ℝ) : Embedding :=
  { embedding_dim := embedding_dim
    vocab_size := vocab_size
    word_padding_idx := padding_idx
    weight := weight
    pe := positional_encoding_2 embedding_dim 5000
    drop := drop }

/-- `Embedding.forward(x, timestep)`:
`self.embedding(x) * math.sqrt(self.embedding_dim) + self.pe[timestep:timestep + x.size(1)]`,
then `* self.embedding_dim ** 0.5`, then dropout.
The source performs no bounds check: the Python slice silently truncates to
`m = min(x.length, pe.length − timestep)` rows, and the subsequent `+`
follows broadcasting rules on the sequence axis — sizes `x.length` and `m`
are compatible exactly when they are equal or one of them is `1`.  So the
call succeeds when the slice has full length `x.length`; or exactly one row,
which is broadcast to every position; or when `x.length = 1`, in which case
the single lookup row is broadcast against the slice — in particular with an
empty slice (`timestep ≥ pe.length`) this yields an empty result, not an
error.  Any other size pair raises a size-mismatch `RuntimeError`. -/
def Embedding.forward (e : Embedding) (x : List ℕ) (timestep : ℕ) :
    Except ModelError (List (List ℝ)) :=
  let lookupScaled : List (List ℝ) :=
    x.map (fun id =>
      (List.range e.embedding_dim).map
        (fun c => e.weight id c * Real.sqrt (e.embedding_dim : ℝ)))
  let peSlice := (e.pe.drop timestep).take x.length
  let scaleDrop : List (List ℝ) → List (List ℝ) := fun m =>
    m.map (fun r => r.map (fun v => e.drop (v * (e.embedding_dim : ℝ) ^ ((0.5 : ℝ)))))
  if peSlice.length = x.length then
    .ok (scaleDrop (List.zipWith (fun row pr => List.zipWith (· + ·) row pr)
      lookupScaled peSlice))
  else if peSlice.length = 1 then
    .ok (scaleDrop (lookupScaled.map
      (fun row => List.zipWith (· + ·) row (peSlice.getD 0 []))))
  else if x.length = 1 then
    .ok (scaleDrop (peSlice.map
      (fun pr => List.zipWith (· + ·) (lookupScaled.getD 0 []) pr)))
  else
    .error .shapeMismatch

/-! ## `transformer.py`: multi-head attention -/

/-- State of a `MultiHeadedAttention` module. -/
structure MultiHeadedAttention where
  head_count : ℕ
  dim_per_head : ℕ
  linear_q : LinearCfg
  linear_kv : LinearCfg
  linear_qkv : LinearCfg
  final_linear : LinearCfg
  drop : ℝ → ℝ

/-- `MultiHeadedAttention.__init__(head_count, model_dim, dropout)`.
The source performs no divisibility check: Python's
`model_dim // head_count` floors, so construction succeeds for every
`head_count ≠ 0` (and raises `ZeroDivisionError` for `head_count = 0`).
The four weight sets are drawn randomly by `reset_parameters`; here they are
explicit arguments. -/
def MultiHeadedAttention.init (head_count model_dim : ℕ)
    (lq lkv lqkv fl : LinearCfg) (drop : ℝ → ℝ) :
    Except ModelError MultiHeadedAttention :=
  if head_count = 0 then .error .zeroDivision
  else .ok
    { head_count := head_count
      dim_per_head := model_dim / head_count
      linear_q := lq
      linear_kv := lkv
      linear_qkv := lqkv
      final_linear := fl
      drop := drop }

/-- `split_head` restricted to head `h`: columns
`[h·dim_per_head, (h+1)·dim_per_head)` of every position. -/
def splitHeadSlice (dph h : ℕ) (m : List (List ℝ)) : List (List ℝ) :=
  m.map (fun row => (row.drop (h * dph)).take dph)

/-- Softmax over one score row (`nn.Softmax(dim=-1)`). -/
def softmaxRow (s : List ℝ) : List ℝ :=
  s.map (fun x => Real.exp x / ((s.map Real.exp).sum))

/-- `scores.masked_fill(mask, -1e20)`: wherever the (broadcast) mask is true
the score is replaced by the large negative sentinel. -/
def maskedFill (scores : List (List ℝ)) (mask : List (List Bool)) :
    List (List ℝ) :=
  List.zipWith (fun srow mrow =>
    List.zipWith (fun x b => if b then (-1e20 : ℝ) else x) srow mrow) scores mask

/-- Raw scaled scores of head `h`:
`q * dim_per_head ** -0.5` then `matmul(q, k.transpose(2, 3))`. -/
def attnHeadScores (dph h : ℕ) (q k : List (List ℝ)) : List (List ℝ) :=
  matMulT
    ((splitHeadSlice dph h q).map
      (fun r => r.map (fun x => x * (dph : ℝ) ^ (-(0.5) : ℝ))))
    (splitHeadSlice dph h k)

/-- Context vectors of head `h`: dropout of the softmaxed masked scores,
multiplied with the head's value slice. -/
def attnHeadContext (dph h : ℕ) (drop : ℝ → ℝ)
    (q k v : List (List ℝ)) (mask : List (List Bool)) : List (List ℝ) :=
  matMulT
    (((maskedFill (attnHeadScores dph h q k) mask).map softmaxRow).map
      (fun r => r.map drop))
    (transposeL dph (splitHeadSlice dph h v))

/-- `combine_head`: reassemble per-head context rows by concatenating the
feature slices of all heads at each position (`L` positions). -/
def combineHeads (L : ℕ) (ms : List (List (List ℝ))) : List (List ℝ) :=
  ms.foldr (fun m acc => List.zipWith (· ++ ·) m acc) (List.replicate L [])

/-- Steps 2–3 of `MultiHeadedAttention.forward` after the projections:
split heads, scale, score, mask-fill, softmax, dropout, context, combine,
final linear. -/
def attentionCore (heads dph : ℕ) (drop : ℝ → ℝ) (final : LinearCfg)
    (q k v : List (List ℝ)) (mask : List (List Bool)) : List (List ℝ) :=
  (combineHeads q.length
    ((List.range heads).map (fun h => attnHeadContext dph h drop q k v mask))).map
    final.apply

/-- `MultiHeadedAttention.forward(query, memory, mask)`.
With `memory = None` the fused `linear_qkv` projection of `query` is chunked
into thirds; otherwise `linear_q(query)` and the halves of
`linear_kv(memory)` are used.  The source then evaluates
`mask.unsqueeze(1)` unconditionally, so a `None` mask raises an
`AttributeError` (modelled as `.error .maskIsNone`). -/
def MultiHeadedAttention.forward (a : MultiHeadedAttention)
    (query : List (List ℝ)) (memory : Option (List (List ℝ)))
    (mask : Option (List (List Bool))) : Except ModelError (List (List ℝ)) :=
  let qkv : List (List ℝ) × List (List ℝ) × List (List ℝ) :=
    match memory with
    | none =>
      let t := a.linear_qkv.applySeq query
      (t.map (fun r => r.take (r.length / 3)),
       t.map (fun r => (r.drop (r.length / 3)).take (r.length / 3)),
       t.map (fun r => r.drop (2 * (r.length / 3))))
    | some mem =>
      let kv := a.linear_kv.applySeq mem
      (a.linear_q.applySeq query,
       kv.map (fun r => r.take (r.length / 2)),
       kv.map (fun r => r.drop (r.length / 2)))
  match mask with
  | none => .error .maskIsNone
  | some m =>
    .ok (attentionCore a.head_count a.dim_per_head a.drop a.final_linear
      qkv.1 qkv.2.1 qkv.2.2 m)

/-! ## `transformer.py`: feed-forward and layer norm -/

/-- State of a `FeedForward` module. -/
structure FeedForward where
  linear_in : LinearCfg
  linear_out : LinearCfg
  drop : ℝ → ℝ

/-- `FeedForward.forward`: `linear_out(dropout(relu(linear_in(x))))`. -/
def FeedForward.forward (f : FeedForward) (x : List (List ℝ)) :
    List (List ℝ) :=
  f.linear_out.applySeq
    (((f.linear_in.applySeq x).map (fun r => r.map (fun v => max v 0))).map
      (fun r => r.map f.drop))

/-- Learned affine parameters of one `nn.LayerNorm(hidden_size)`. -/
structure LayerNormCfg where
  gamma : List ℝ
  beta : List ℝ

/-- `nn.LayerNorm` on one position: normalize the feature vector to zero
mean and (biased) unit variance with `eps = 1e-5`, then scale and shift. -/
def layerNormRow (n : LayerNormCfg) (x : List ℝ) : List ℝ :=
  let mean := x.sum / (x.length : ℝ)
  let varr := ((x.map (fun v => (v - mean) ^ 2)).sum) / (x.length : ℝ)
  List.zipWith (fun v gb => (v - mean) / Real.sqrt (varr + 1e-5) * gb.1 + gb.2)
    x (n.gamma.zip n.beta)

/-! ## `transformer.py`: encoder -/

/-- State of an `EncoderLayer`. -/
structure EncoderLayer where
  self_attn : MultiHeadedAttention
  feed_forward : FeedForward
  norm0 : LayerNormCfg
  norm1 : LayerNormCfg
  drop : ℝ → ℝ

/-- `EncoderLayer.forward(x, mask)`: fused-projection self-attention
(`memory=None`), residual + post-norm, feed-forward, residual + post-norm. -/
def EncoderLayer.forward (l : EncoderLayer) (x : List (List ℝ))
    (mask : Option (List (List Bool))) : Except ModelError (List (List ℝ)) := do
  let y ← l.self_attn.forward x none mask
  let x1 := (seqAdd x (dropSeq l.drop y)).map (layerNormRow l.norm0)
  let y2 := l.feed_forward.forward x1
  return (seqAdd x1 (dropSeq l.drop y2)).map (layerNormRow l.norm1)

/-- State of an `Encoder`. -/
structure Encoder where
  embedding : Embedding
  layers : List EncoderLayer

/-- The encoder's sequential layer loop. -/
def encoderRunLayers (mask : List (List Bool)) :
    List EncoderLayer → List (List ℝ) → Except ModelError (List (List ℝ))
  | [], output => .ok output
  | l :: ls, output => do
    let output' ← l.forward output (some mask)
    encoderRunLayers mask ls output'

/-- `Encoder.forward(src, src_pad)`: the padding mask repeats `src_pad`
for every query position; the embedded source is pushed through the stack. -/
def Encoder.forward (e : Encoder) (src : List ℕ) (src_pad : List Bool) :
    Except ModelError (List (List ℝ)) := do
  let output ← e.embedding.forward src 0
  encoderRunLayers (List.replicate src.length src_pad) e.layers output

/-! ## `transformer.py`: decoder -/

/-- The decoder's registered buffer
`torch.triu(torch.ones(1000, 1000), diagonal=1)`: a strict upper triangle of
ones on a 1000×1000 domain (entry `(i, j)` is 1 exactly when `i < j`). -/
def upper_triangle (i j : ℕ) : ℕ :=
  if i < 1000 ∧ j < 1000 ∧ i < j then 1 else 0

/-- The decoder's self-attention mask for a length-`tgt_len` target:
`torch.gt(tgt_pad.unsqueeze(1).repeat(1, tgt_len, 1) + upper_triangle[:tgt_len, :tgt_len], 0)`.
Entry `(q, k)` is the 0/1 padding flag of key position `k` plus the causal
byte, thresholded by `> 0`. -/
def decoderTgtMask (tgt_pad : List Bool) (tgt_len : ℕ) : List (List Bool) :=
  (List.range tgt_len).map (fun q =>
    (List.range tgt_len).map (fun k =>
      decide (0 < (if tgt_pad.getD k false then 1 else 0) + upper_triangle q k)))

/-- State of a `DecoderLayer` (`norm` is a `ModuleList` of three layer
norms, spelled out as three fields). -/
structure DecoderLayer where
  self_attn : MultiHeadedAttention
  src_attn : MultiHeadedAttention
  feed_forward : FeedForward
  norm0 : LayerNormCfg
  norm1 : LayerNormCfg
  norm2 : LayerNormCfg
  drop : ℝ → ℝ

/-- `DecoderLayer.forward(x, enc_out, src_mask, tgt_mask, previous)`:
`all_input` is `x` or `cat((previous, x), dim=1)`; self-attention always
receives `memory=all_input`; then residual + norm, cross-attention to
`enc_out`, residual + norm, feed-forward, residual + norm.  Returns the
transformed sequence and `all_input`. -/
def DecoderLayer.forward (l : DecoderLayer) (x enc_out : List (List ℝ))
    (src_mask tgt_mask : Option (List (List Bool)))
    (previous : Option (List (List ℝ))) :
    Except ModelError (List (List ℝ) × List (List ℝ)) := do
  let all_input : List (List ℝ) :=
    match previous with
    | none => x
    | some p => p ++ x
  let y ← l.self_attn.forward x (some all_input) tgt_mask
  let x1 := (seqAdd x (dropSeq l.drop y)).map (layerNormRow l.norm0)
  let y2 ← l.src_attn.forward x1 (some enc_out) src_mask
  let x2 := (seqAdd x1 (dropSeq l.drop y2)).map (layerNormRow l.norm1)
  let y3 := l.feed_forward.forward x2
  let x3 := (seqAdd x2 (dropSeq l.drop y3)).map (layerNormRow l.norm2)
  return (x3, all_input)

/-- State of a `Decoder`. -/
structure Decoder where
  embedding : Embedding
  layers : List DecoderLayer

/-- The decoder's layer loop (`for i, layer in enumerate(self.layers)`):
layer `i` receives `previous[:, i]` as its history and — exactly as in the
source — the target mask is replaced by `None` whenever `previous` is
supplied.  Collects every layer's `all_input` (the `saved_inputs` list that
`torch.stack(..., dim=1)` turns into the cache). -/
def decoderRunLayers (enc_out : List (List ℝ)) (src_mask : List (List Bool))
    (tgt_mask : List (List Bool)) (previous : Option (List (List (List ℝ)))) :
    ℕ → List DecoderLayer → List (List ℝ) →
    Except ModelError (List (List ℝ) × List (List (List ℝ)))
  | _, [], output => .ok (output, [])
  | i, l :: ls, output => do
    let prev_layer : Option (List (List ℝ)) :=
      match previous with
      | none => none
      | some p => some (p.getD i [])
    let tm : Option (List (List Bool)) :=
      match previous with
      | none => some tgt_mask
      | some _ => none
    let r ← l.forward output enc_out (some src_mask) tm prev_layer
    let rest ← decoderRunLayers enc_out src_mask tgt_mask previous (i + 1) ls r.1
    return (rest.1, r.2 :: rest.2)

/-- `Decoder.forward(tgt, enc_out, src_pad, tgt_pad, previous, timestep)`:
embed the target with the `timestep` offset, build the repeated source mask
and the causal+padding target mask, and run the layer loop.  Slicing the
1000×1000 causal buffer silently truncates, so targets longer than 1000
make the mask addition a broadcasting size mismatch (`shapeMismatch`). -/
def Decoder.forward (d : Decoder) (tgt : List ℕ) (enc_out : List (List ℝ))
    (src_pad tgt_pad : List Bool)
    (previous : Option (List (List (List ℝ)))) (timestep : ℕ) :
    Except ModelError (List (List ℝ) × List (List (List ℝ))) := do
  let output ← d.embedding.forward tgt timestep
  let tgt_len := tgt.length
  if tgt_len ≤ 1000 then
    decoderRunLayers enc_out (List.replicate tgt_len src_pad)
      (decoderTgtMask tgt_pad tgt_len) previous 0 d.layers output
  else
    .error .shapeMismatch


/-! ## Well-formed weight shapes -/

/-- `m` is an `r × c` matrix (`r` rows, each of length `c`). -/
def IsMat {α : Type _} (r c : ℕ) (m : List (List α)) : Prop :=
  m.length = r ∧ ∀ row ∈ m, row.length = c

/-- A linear module mapping `inF` features to `outF` features. -/
def LinearCfg.WF (l : LinearCfg) (outF inF : ℕ) : Prop :=
  IsMat outF inF l.W ∧ l.b.length = outF

/-- Weight shapes of `MultiHeadedAttention(head_count, model_dim = D)`:
`linear_q : D→D`, `linear_kv : D→2D`, `linear_qkv : D→3D`,
`final_linear : D→D`, and the heads tile the feature space. -/
def MultiHeadedAttention.WF (a : MultiHeadedAttention) (D : ℕ) : Prop :=
  a.linear_q.WF D D ∧ a.linear_kv.WF (2 * D) D ∧ a.linear_qkv.WF (3 * D) D
    ∧ a.final_linear.WF D D ∧ a.head_count * a.dim_per_head = D

def LayerNormCfg.WF (n : LayerNormCfg) (D : ℕ) : Prop :=
  n.gamma.length = D ∧ n.beta.length = D

def FeedForward.WF (f : FeedForward) (D inner : ℕ) : Prop :=
  f.linear_in.WF inner D ∧ f.linear_out.WF D inner

def DecoderLayer.WF (l : DecoderLayer) (D inner : ℕ) : Prop :=
  l.self_attn.WF D ∧ l.src_attn.WF D ∧ l.feed_forward.WF D inner
    ∧ l.norm0.WF D ∧ l.norm1.WF D ∧ l.norm2.WF D

/-- Well-formed decoder over `model_dim = D`: every layer's weights have the
right shapes and the embedding holds the source-built positional table. -/
def Decoder.WF (d : Decoder) (D inner : ℕ) : Prop :=
  d.embedding.embedding_dim = D
    ∧ d.embedding.pe = positional_encoding_2 D 5000
    ∧ ∀ l ∈ d.layers, l.WF D inner

/-! ## General list lemmas -/

theorem getD_len_le {α : Type _} (l : List α) (d : α) (n : ℕ)
    (h : l.length ≤ n) : l.getD n d = d := by
  simp only [List.getD_eq_getElem?_getD]
  rw [List.getElem?_eq_none h]
  rfl

theorem dotL_eq_sum (a b : List ℝ) :
    dotL a b = ∑ i ∈ Finset.range (min a.length b.length),
      a.getD i 0 * b.getD i 0 := by
  induction a generalizing b with
  | nil => simp [dotL]
  | cons x xs ih =>
    cases b with
    | nil => simp [dotL]
    | cons y ys =>
      simp only [dotL, List.zipWith_cons_cons, List.sum_cons, List.length_cons]
      rw [show min (xs.length + 1) (ys.length + 1) = min xs.length ys.length + 1 by omega]
      rw [Finset.sum_range_succ']
      simp only [List.getD_cons_succ, List.getD_cons_zero]
      rw [← dotL, ih]
      ring

theorem dropTake_getD (r : List ℝ) (a b d : ℕ) :
    ((r.drop a).take b).getD d 0 = if d < b then r.getD (a + d) 0 else 0 := by
  split <;> rename_i hd
  · by_cases hlen : a + d < r.length
    · rw [List.getD_eq_getElem _ _ (by simp; omega), List.getD_eq_getElem _ _ hlen]
      rw [List.getElem_take, List.getElem_drop]
    · rw [getD_len_le _ _ _ (by simp; omega), getD_len_le _ _ _ (by omega)]
  · exact getD_len_le _ _ _ (by simp; omega)

/-! ## Facts about the positional table -/

theorem positional_encoding_2_length (dim max_len : ℕ) :
    (positional_encoding_2 dim max_len).length = max_len := by
  unfold positional_encoding_2
  rw [List.length_map, List.length_range]

theorem positional_encoding_2_row (dim max_len p : ℕ) (hp : p < max_len) :
    (positional_encoding_2 dim max_len).getD p []
      = (List.range dim).map (peEntry dim p) := by
  have h : p < (positional_encoding_2 dim max_len).length := by
    rw [positional_encoding_2_length]; exact hp
  rw [List.getD_eq_getElem _ _ h]
  simp only [positional_encoding_2, List.getElem_map, List.getElem_range]

theorem positional_encoding_2_getD (dim max_len p c : ℕ)
    (hp : p < max_len) (hc : c < dim) :
    ((positional_encoding_2 dim max_len).getD p []).getD c 0 = peEntry dim p c := by
  rw [positional_encoding_2_row dim max_len p hp]
  rw [List.getD_eq_getElem _ _ (by rw [List.length_map, List.length_range]; exact hc)]
  simp only [List.getElem_map, List.getElem_range]

theorem peExpArg (dim c : ℕ) :
    Real.exp ((c : ℝ) * -(Real.log 10000 / (dim : ℝ)))
      = ((10000 : ℝ) ^ ((c : ℝ) / (dim : ℝ)))⁻¹ := by
  rw [Real.rpow_def_of_pos (by norm_num), ← Real.exp_neg]
  congr 1
  ring

/-- C2. For every even positive `embedding_dim` and every `max_len`, the
positional table has, at row `p` and column `2i`, the value
`sin(p / 10000^(2i/dim))`, and at row `p` and column `2i+1` the value
`cos(p / 10000^(2i/dim))`.  (The table is also deterministic given the same
dimension and length: `positional_encoding_2` is a pure function.) -/
theorem positional_encoding_values (dim max_len p i : ℕ)
    (hdim : Even dim) (hpos : 0 < dim) (hp : p < max_len) (hi : 2 * i + 1 < dim) :
    ((positional_encoding_2 dim max_len).getD p []).getD (2 * i) 0
        = Real.sin ((p : ℝ) / (10000 : ℝ) ^ (((2 * i : ℕ) : ℝ) / (dim : ℝ)))
    ∧ ((positional_encoding_2 dim max_len).getD p []).getD (2 * i + 1) 0
        = Real.cos ((p : ℝ) / (10000 : ℝ) ^ (((2 * i : ℕ) : ℝ) / (dim : ℝ))) := by
  constructor
  · rw [positional_encoding_2_getD dim max_len p (2 * i) hp (by omega)]
    rw [peEntry, if_pos (by omega)]
    rw [peExpArg]
    congr 1
  · rw [positional_encoding_2_getD dim max_len p (2 * i + 1) hp hi]
    rw [peEntry, if_neg (by omega)]
    rw [show (((2 * i + 1 : ℕ) : ℝ) - 1) = ((2 * i : ℕ) : ℝ) by push_cast; ring]
    rw [peExpArg]
    congr 1

/-- Witness for C2 at `dim = 2`, `max_len = 3`, row `p = 1`, `i = 0`. -/
theorem positional_encoding_values_witness :
    ((positional_encoding_2 2 3).getD 1 []).getD 0 0
        = Real.sin ((1 : ℝ) / (10000 : ℝ) ^ (((0 : ℕ) : ℝ) / ((2 : ℕ) : ℝ)))
    ∧ ((positional_encoding_2 2 3).getD 1 []).getD 1 0
        = Real.cos ((1 : ℝ) / (10000 : ℝ) ^ (((0 : ℕ) : ℝ) / ((2 : ℕ) : ℝ))) := by
  have h := positional_encoding_values 2 3 1 0 (by decide) (by decide)
    (by decide) (by decide)
  simpa using h

theorem rangeMap_getD {α : Type _} (d : α) (f : ℕ → α) (n i : ℕ) (h : i < n) :
    ((List.range n).map f).getD i d = f i := by
  rw [List.getD_eq_getElem _ _ (by simpa using h)]
  simp only [List.getElem_map, List.getElem_range]

theorem map_getD_lt {α β : Type _} (f : α → β) (l : List α) (i : ℕ)
    (da : α) (db : β) (hi : i < l.length) :
    (l.map f).getD i db = f (l.getD i da) := by
  rw [List.getD_eq_getElem _ _ (by simpa using hi),
    List.getD_eq_getElem _ _ hi, List.getElem_map]

theorem zipWith_getD_lt {α β γ : Type _} (f : α → β → γ) (a : List α)
    (b : List β) (i : ℕ) (da : α) (db : β) (dc : γ)
    (ha : i < a.length) (hb : i < b.length) :
    (List.zipWith f a b).getD i dc = f (a.getD i da) (b.getD i db) := by
  rw [List.getD_eq_getElem _ _ (by simp; omega),
    List.getD_eq_getElem _ _ ha, List.getD_eq_getElem _ _ hb,
    List.getElem_zipWith]

/-! ## C10: the positional table capacity is fixed at 5000 -/

/-- C10. Every `Embedding` instance, regardless of its four construction
arguments, stores the table `positional_encoding_2 embedding_dim 5000`
with exactly 5000 rows: `Embedding.init` exposes no maximum-length
parameter, so the capacity is the source's default `max_len = 5000` and the
caller cannot enlarge it.  (`Even embedding_dim` because odd dimensions make
the source's table construction itself raise.) -/
theorem embedding_pe_always_5000_rows (embedding_dim vocab_size padding_idx : ℕ)
    (weight : ℕ → ℕ → ℝ) (drop : ℝ → ℝ) (hdim : Even embedding_dim) :
    (Embedding.init embedding_dim vocab_size padding_idx weight drop).pe
        = positional_encoding_2 embedding_dim 5000
    ∧ (Embedding.init embedding_dim vocab_size padding_idx weight drop).pe.length
        = 5000 := by
  have h1 : (Embedding.init embedding_dim vocab_size padding_idx weight drop).pe
      = positional_encoding_2 embedding_dim 5000 := by
    simp [Embedding.init]
  exact ⟨h1, by rw [h1, positional_encoding_2_length]⟩

/-- Witness for C10 at `embedding_dim = 2`. -/
theorem embedding_pe_always_5000_rows_witness :
    (Embedding.init 2 7 0 (fun _ _ => 0) id).pe = positional_encoding_2 2 5000
    ∧ (Embedding.init 2 7 0 (fun _ _ => 0) id).pe.length = 5000 :=
  embedding_pe_always_5000_rows 2 7 0 (fun _ _ => 0) id ⟨1, rfl⟩

/-! ## C4: the decoder's combined causal + padding mask -/

/-- C4. In non-incremental mode the decoder self-attention mask entry
`(q, k)` is the logical OR of the padding flag of key position `k` and the
strict causal bit `k > q` — the source computes it as a 0/1 integer sum
thresholded by `> 0`; and for `L = 4` with no padding, entry
`(query=1, key=2)` is masked while `(query=2, key=1)` is not. -/
theorem decoder_tgt_mask_is_or (tgt_pad : List Bool) (L q k : ℕ)
    (hL : L ≤ 1000) (hq : q < L) (hk : k < L) :
    (((decoderTgtMask tgt_pad L).getD q []).getD k false
        = (tgt_pad.getD k false || decide (q < k)))
    ∧ ((decoderTgtMask (List.replicate 4 false) 4).getD 1 []).getD 2 false = true
    ∧ ((decoderTgtMask (List.replicate 4 false) 4).getD 2 []).getD 1 false = false := by
  refine ⟨?_, by decide, by decide⟩
  unfold decoderTgtMask
  rw [rangeMap_getD _ _ _ _ hq, rangeMap_getD _ _ _ _ hk]
  have hut : upper_triangle q k = if q < k then 1 else 0 := by
    unfold upper_triangle
    by_cases hqk : q < k
    · rw [if_pos ⟨by omega, by omega, hqk⟩, if_pos hqk]
    · rw [if_neg (by tauto), if_neg hqk]
  rw [hut]
  generalize tgt_pad.getD k false = pb
  cases pb <;> by_cases hqk : q < k <;> simp [hqk]

/-- Witness for C4 at `L = 4`, no padding, `(q, k) = (1, 2)`. -/
theorem decoder_tgt_mask_is_or_witness :
    (((decoderTgtMask (List.replicate 4 false) 4).getD 1 []).getD 2 false
        = ((List.replicate 4 false).getD 2 false || decide (1 < 2)))
    ∧ ((decoderTgtMask (List.replicate 4 false) 4).getD 1 []).getD 2 false = true
    ∧ ((decoderTgtMask (List.replicate 4 false) 4).getD 2 []).getD 1 false = false :=
  decoder_tgt_mask_is_or (List.replicate 4 false) 4 1 2
    (by decide) (by decide) (by decide)

/-! ## C6: construction with a non-divisible head count -/

/-- C6 counterexample: constructing a `MultiHeadedAttention` with
`model_dim = 10` and `head_count = 3` (`10 % 3 ≠ 0`) does NOT fail — the
source's `__init__` performs no divisibility check, so the claim that it
raises `InvalidConfiguration` at construction is false. -/
theorem mha_init_nondivisible_succeeds :
    isOkE (MultiHeadedAttention.init 3 10 ⟨[], []⟩ ⟨[], []⟩ ⟨[], []⟩ ⟨[], []⟩ id)
      = true := rfl

/-- C6 amended: for every nonzero `head_count`, construction succeeds and
silently floors, storing `dim_per_head = model_dim / head_count`; no
configuration error is raised (for `head_count = 0` Python would raise a
`ZeroDivisionError` instead). -/
theorem mha_init_floors (head_count model_dim : ℕ) (lq lkv lqkv fl : LinearCfg)
    (drop : ℝ → ℝ) (h : head_count ≠ 0) :
    MultiHeadedAttention.init head_count model_dim lq lkv lqkv fl drop
      = .ok { head_count := head_count
              dim_per_head := model_dim / head_count
              linear_q := lq
              linear_kv := lkv
              linear_qkv := lqkv
              final_linear := fl
              drop := drop } := by
  unfold MultiHeadedAttention.init
  rw [if_neg h]

/-- Witness for C6's amended statement at `head_count = 3`,
`model_dim = 10`: construction succeeds with `dim_per_head = 3`. -/
theorem mha_init_floors_witness :
    MultiHeadedAttention.init 3 10 ⟨[], []⟩ ⟨[], []⟩ ⟨[], []⟩ ⟨[], []⟩ id
      = .ok { head_count := 3
              dim_per_head := 3
              linear_q := ⟨[], []⟩
              linear_kv := ⟨[], []⟩
              linear_qkv := ⟨[], []⟩
              final_linear := ⟨[], []⟩
              drop := id } := by
  have h := mha_init_floors 3 10 ⟨[], []⟩ ⟨[], []⟩ ⟨[], []⟩ ⟨[], []⟩ id
    (by decide)
  simpa using h

/-! ## Embedding forward: helper lemmas -/

theorem embedding_init_pe (dim vocab pad : ℕ) (w : ℕ → ℕ → ℝ) (dr : ℝ → ℝ) :
    (Embedding.init dim vocab pad w dr).pe = positional_encoding_2 dim 5000 := by
  simp [Embedding.init]

theorem embedding_init_dim (dim vocab pad : ℕ) (w : ℕ → ℕ → ℝ) (dr : ℝ → ℝ) :
    (Embedding.init dim vocab pad w dr).embedding_dim = dim := by
  simp [Embedding.init]

theorem embedding_init_weight (dim vocab pad : ℕ) (w : ℕ → ℕ → ℝ) (dr : ℝ → ℝ) :
    (Embedding.init dim vocab pad w dr).weight = w := by
  simp [Embedding.init]

theorem embedding_init_drop (dim vocab pad : ℕ) (w : ℕ → ℕ → ℝ) (dr : ℝ → ℝ) :
    (Embedding.init dim vocab pad w dr).drop = dr := by
  simp [Embedding.init]

/-- The in-bounds branch of `Embedding.forward`: when
`timestep + x.length` fits in the table the slice has full length and the
forward call returns the summed, rescaled, dropout-mapped rows. -/
theorem embedding_forward_eq_ok (e : Embedding) (x : List ℕ) (t : ℕ)
    (h : t + x.length ≤ e.pe.length) :
    e.forward x t = .ok
      ((List.zipWith (fun row pr => List.zipWith (· + ·) row pr)
          (x.map (fun id => (List.range e.embedding_dim).map
            (fun c => e.weight id c * Real.sqrt (e.embedding_dim : ℝ))))
          ((e.pe.drop t).take x.length)).map
        (fun r => r.map (fun v => e.drop (v * (e.embedding_dim : ℝ) ^ ((0.5 : ℝ)))))) := by
  have hlen : ((e.pe.drop t).take x.length).length = x.length := by
    rw [List.length_take, List.length_drop]
    omega
  simp only [Embedding.forward]
  rw [if_pos hlen]

/-! ## C7: positional-table capacity at call time -/

/-- C7 amended.  `Embedding.forward` raises no dedicated overflow error.
A call succeeds iff the positional slice `pe[timestep : timestep + L]`
broadcasts against the `L` lookup rows: either the slice has full length
`L` (in particular whenever `timestep + L ≤ 5000`), or exactly one table row
remains (`min L (5000 − timestep) = 1`, e.g. `timestep = 4999` with `L ≥ 2`),
in which case the call silently succeeds by broadcasting that single row, or
`L = 1`, in which case the single lookup row broadcasts against the slice —
so a one-token call with `timestep ≥ 5000` silently returns an empty tensor.
All other out-of-capacity calls fail with a generic size-mismatch error, not
a dedicated overflow condition. -/
theorem embedding_forward_isOk_iff (dim vocab pad : ℕ) (w : ℕ → ℕ → ℝ)
    (dr : ℝ → ℝ) (x : List ℕ) (t : ℕ) :
    isOkE ((Embedding.init dim vocab pad w dr).forward x t) = true
      ↔ (min x.length (5000 - t) = x.length ∨ min x.length (5000 - t) = 1
        ∨ x.length = 1) := by
  have hlen : (((Embedding.init dim vocab pad w dr).pe.drop t).take x.length).length
      = min x.length (5000 - t) := by
    rw [List.length_take, List.length_drop, embedding_init_pe,
      positional_encoding_2_length]
  simp only [Embedding.forward]
  rw [hlen]
  split_ifs with h1 h2 h3
  · exact iff_of_true rfl (Or.inl h1)
  · exact iff_of_true rfl (Or.inr (Or.inl h2))
  · exact iff_of_true rfl (Or.inr (Or.inr h3))
  · exact iff_of_false (by simp [isOkE]) (by tauto)

/-- C7 counterexample: at `timestep = 4999` with a two-token input,
`timestep + L = 5001 > 5000`, yet the call silently succeeds (the
one remaining positional row broadcasts over both positions) instead of
failing with an overflow error. -/
theorem embedding_forward_overflow_succeeds :
    isOkE ((Embedding.init 2 10 0 (fun _ _ => 0) id).forward [0, 0] 4999)
      = true := by
  have hlen : (((Embedding.init 2 10 0 (fun _ _ => 0) id).pe.drop 4999).take
      ([0, 0] : List ℕ).length).length = 1 := by
    rw [List.length_take, List.length_drop, embedding_init_pe,
      positional_encoding_2_length]
    decide
  simp only [Embedding.forward]
  rw [hlen, if_neg (by norm_num), if_pos rfl]
  rfl

/-! ## C5: the double `sqrt(embedding_dim)` scaling -/

/-- C5. For every token list `x` and timestep `t` within table capacity,
`embed(x, t)` equals dropout applied to
`(E[x] · sqrt(embedding_dim) + pe[t : t + L]) · sqrt(embedding_dim)`:
the `sqrt(embedding_dim)` scale is applied twice, once at lookup and once
(after adding the positional slice) to the whole sum. -/
theorem embedding_forward_double_scaling (dim vocab pad : ℕ) (w : ℕ → ℕ → ℝ)
    (dr : ℝ → ℝ) (x : List ℕ) (t : ℕ) (h : t + x.length ≤ 5000) :
    ∃ m, (Embedding.init dim vocab pad w dr).forward x t = .ok m
      ∧ m.length = x.length
      ∧ ∀ pos c, pos < x.length → c < dim →
          (m.getD pos []).getD c 0
            = dr ((w (x.getD pos 0) c * Real.sqrt (dim : ℝ)
                + ((positional_encoding_2 dim 5000).getD (t + pos) []).getD c 0)
              * Real.sqrt (dim : ℝ)) := by
  have hpe := embedding_init_pe dim vocab pad w dr
  have hok := embedding_forward_eq_ok (Embedding.init dim vocab pad w dr) x t
    (by rw [hpe, positional_encoding_2_length]; omega)
  rw [embedding_init_dim, embedding_init_weight, embedding_init_drop, hpe] at hok
  refine ⟨_, hok, ?_, ?_⟩
  · rw [List.length_map, List.length_zipWith, List.length_map,
      List.length_take, List.length_drop, positional_encoding_2_length]
    omega
  · intro pos c hpos hc
    have hslicelen : (((positional_encoding_2 dim 5000).drop t).take x.length).length
        = x.length := by
      rw [List.length_take, List.length_drop, positional_encoding_2_length]
      omega
    have hziplen : (List.zipWith (fun row pr => List.zipWith (· + ·) row pr)
        (x.map (fun id => (List.range dim).map
          (fun c => w id c * Real.sqrt (dim : ℝ))))
        (((positional_encoding_2 dim 5000).drop t).take x.length)).length
        = x.length := by
      rw [List.length_zipWith, List.length_map, hslicelen]
      omega
    rw [map_getD_lt _ _ _ [] [] (by rw [hziplen]; exact hpos)]
    rw [zipWith_getD_lt _ _ _ _ [] [] []
      (by rw [List.length_map]; exact hpos) (by rw [hslicelen]; exact hpos)]
    have hslice : (((positional_encoding_2 dim 5000).drop t).take x.length).getD pos []
        = (positional_encoding_2 dim 5000).getD (t + pos) [] := by
      rw [List.getD_eq_getElem _ _ (by rw [hslicelen]; exact hpos)]
      rw [List.getElem_take, List.getElem_drop]
      rw [List.getD_eq_getElem _ _ (by rw [positional_encoding_2_length]; omega)]
    rw [hslice]
    rw [map_getD_lt _ x pos 0 [] hpos]
    have hrowlen : ((positional_encoding_2 dim 5000).getD (t + pos) []).length = dim := by
      rw [positional_encoding_2_row dim 5000 (t + pos) (by omega)]
      rw [List.length_map, List.length_range]
    rw [map_getD_lt _ _ c 0 0
      (by rw [List.length_zipWith, List.length_map, List.length_range, hrowlen]; omega)]
    rw [zipWith_getD_lt _ _ _ c 0 0 0
      (by rw [List.length_map, List.length_range]; exact hc) (by rw [hrowlen]; exact hc)]
    rw [rangeMap_getD _ _ _ _ hc]
    rw [show ((dim : ℝ) ^ ((0.5 : ℝ))) = Real.sqrt (dim : ℝ) by
      rw [Real.sqrt_eq_rpow]; norm_num]

/-- Witness for C5 at `dim = 2`, `x = [0]`, `t = 0`. -/
theorem embedding_forward_double_scaling_witness :
    ∃ m, (Embedding.init 2 1 0 (fun _ _ => 0) id).forward [0] 0 = .ok m
      ∧ m.length = ([0] : List ℕ).length
      ∧ ∀ pos c, pos < ([0] : List ℕ).length → c < 2 →
          (m.getD pos []).getD c 0
            = id (((fun _ _ => (0 : ℝ)) (([0] : List ℕ).getD pos 0) c * Real.sqrt ((2 : ℕ) : ℝ)
                + ((positional_encoding_2 2 5000).getD (0 + pos) []).getD c 0)
              * Real.sqrt ((2 : ℕ) : ℝ)) :=
  embedding_forward_double_scaling 2 1 0 (fun _ _ => 0) id [0] 0 (by norm_num)

/-! ## C9: the fused qkv projection is dead weight in the decoder -/

theorem decoderLayer_forward_ignores_qkv (l : DecoderLayer) (z : LinearCfg)
    (x enc_out : List (List ℝ)) (src_mask tgt_mask : Option (List (List Bool)))
    (previous : Option (List (List ℝ))) :
    DecoderLayer.forward
        { l with self_attn := { l.self_attn with linear_qkv := z } }
        x enc_out src_mask tgt_mask previous
      = l.forward x enc_out src_mask tgt_mask previous := rfl

theorem decoderRunLayers_ignores_qkv (enc_out : List (List ℝ))
    (src_mask tgt_mask : List (List Bool))
    (previous : Option (List (List (List ℝ)))) (g : DecoderLayer → LinearCfg)
    (ls : List DecoderLayer) :
    ∀ (i : ℕ) (output : List (List ℝ)),
    decoderRunLayers enc_out src_mask tgt_mask previous i
        (ls.map (fun l =>
          { l with self_attn := { l.self_attn with linear_qkv := g l } })) output
      = decoderRunLayers enc_out src_mask tgt_mask previous i ls output := by
  induction ls with
  | nil => intro i output; rfl
  | cons l ls ih =>
    intro i output
    simp only [List.map_cons, decoderRunLayers,
      decoderLayer_forward_ignores_qkv, ih]

/-- C9. The decoder layer's self-attention is always invoked with a present
(non-`None`) memory — `all_input` — so decoder self-attention always takes
the separate query-projection plus fused key/value-projection path, and the
fused `linear_qkv` projection of a decoder layer's self-attention never
influences any decoder output: replacing every layer's `linear_qkv` by
arbitrary other weights leaves `Decoder.forward` unchanged, in full-sequence
and incremental mode alike. -/
theorem decoder_output_ignores_linear_qkv (d : Decoder)
    (g : DecoderLayer → LinearCfg) (tgt : List ℕ) (enc_out : List (List ℝ))
    (src_pad tgt_pad : List Bool)
    (previous : Option (List (List (List ℝ)))) (timestep : ℕ) :
    Decoder.forward
      { d with layers := d.layers.map (fun l =>
          { l with self_attn := { l.self_attn with linear_qkv := g l } }) }
      tgt enc_out src_pad tgt_pad previous timestep
      = Decoder.forward d tgt enc_out src_pad tgt_pad previous timestep := by
  unfold Decoder.forward
  simp only [decoderRunLayers_ignores_qkv]

/-! ## C1: incremental decoding with a non-empty cache crashes -/

theorem exceptBindOk {ε α β : Type _} (a : α) (f : α → Except ε β) :
    (Bind.bind (Except.ok a) f : Except ε β) = f a := rfl

/-- `MultiHeadedAttention.forward` with a `None` mask raises
(`mask.unsqueeze(1)` on `None`), whatever the query and memory are. -/
theorem mha_forward_mask_none (a : MultiHeadedAttention)
    (query : List (List ℝ)) (memory : Option (List (List ℝ))) :
    a.forward query memory none = .error .maskIsNone := rfl

/-- C1 (failing behaviour).  The claim states that incremental decoding
(threading the returned cache back in as `previous`) matches full-sequence
decoding, the cached calls applying no self-attention mask.  The decoder
does set `tgt_mask = None` whenever `previous` is supplied, but
`MultiHeadedAttention.forward` applies `mask.unsqueeze(1)` unconditionally,
so every incremental call with a non-empty cache raises instead of
computing unmasked self-attention: with at least one layer, any in-capacity
call with `previous = some _` returns the `maskIsNone` error, and therefore
can never reproduce the full-sequence hidden states. -/
theorem decoder_incremental_cached_step_errors (d : Decoder) (tgt : List ℕ)
    (enc_out : List (List ℝ)) (src_pad tgt_pad : List Bool)
    (prev : List (List (List ℝ))) (timestep : ℕ)
    (hlayers : d.layers ≠ [])
    (hcap : timestep + tgt.length ≤ d.embedding.pe.length)
    (hlen : tgt.length ≤ 1000) :
    d.forward tgt enc_out src_pad tgt_pad (some prev) timestep
      = .error .maskIsNone := by
  obtain ⟨l, ls, hL⟩ : ∃ l ls, d.layers = l :: ls := by
    cases hC : d.layers with
    | nil => exact absurd hC hlayers
    | cons a b => exact ⟨a, b, rfl⟩
  unfold Decoder.forward
  rw [embedding_forward_eq_ok _ _ _ hcap, hL]
  rw [exceptBindOk]
  rw [if_pos hlen]
  rfl

/-- Witness for C1's failing behaviour: a one-layer decoder with all-zero
weights and `model_dim = 1`, at its second incremental step (`timestep = 1`,
single new token, non-empty cache from step one): the call errors. -/
theorem decoder_incremental_cached_step_errors_witness :
    Decoder.forward
      ⟨Embedding.init 1 1 0 (fun _ _ => 0) id,
        [⟨⟨1, 1, ⟨[[0]], [0]⟩, ⟨[[0], [0]], [0, 0]⟩,
            ⟨[[0], [0], [0]], [0, 0, 0]⟩, ⟨[[0]], [0]⟩, id⟩,
          ⟨1, 1, ⟨[[0]], [0]⟩, ⟨[[0], [0]], [0, 0]⟩,
            ⟨[[0], [0], [0]], [0, 0, 0]⟩, ⟨[[0]], [0]⟩, id⟩,
          ⟨⟨[[0]], [0]⟩, ⟨[[0]], [0]⟩, id⟩,
          ⟨[1], [0]⟩, ⟨[1], [0]⟩, ⟨[1], [0]⟩, id⟩]⟩
      [0] [[0]] [false] [false] (some [[[0]]]) 1
      = .error .maskIsNone := by
  apply decoder_incremental_cached_step_errors
  · simp
  · show 1 + ([0] : List ℕ).length ≤ (Embedding.init 1 1 0 (fun _ _ => 0) id).pe.length
    rw [embedding_init_pe, positional_encoding_2_length]
    norm_num
  · norm_num

/-! ## Shape lemmas -/

theorem exceptBind_eq_ok {ε α β : Type _} (ma : Except ε α)
    (f : α → Except ε β) (b : β)
    (h : (Bind.bind ma f : Except ε β) = Except.ok b) :
    ∃ a, ma = .ok a ∧ f a = .ok b := by
  cases ma with
  | ok a => exact ⟨a, rfl, h⟩
  | error e => exact absurd h (by simp [Bind.bind, Except.bind])

theorem linearCfg_apply_length (l : LinearCfg) (outF inF : ℕ)
    (h : l.WF outF inF) (x : List ℝ) : (l.apply x).length = outF := by
  obtain ⟨⟨hW, _⟩, hb⟩ := h
  unfold LinearCfg.apply linearRow
  rw [List.length_zipWith, hW, hb]
  omega

theorem linearCfg_applySeq_isMat (l : LinearCfg) (outF inF : ℕ)
    (h : l.WF outF inF) (m : List (List ℝ)) :
    IsMat m.length outF (l.applySeq m) := by
  constructor
  · unfold LinearCfg.applySeq
    rw [List.length_map]
  · intro row hrow
    unfold LinearCfg.applySeq at hrow
    obtain ⟨x, _, rfl⟩ := List.mem_map.mp hrow
    exact linearCfg_apply_length l outF inF h x

theorem matMulT_isMat (A B : List (List ℝ)) :
    IsMat A.length B.length (matMulT A B) := by
  constructor
  · unfold matMulT
    rw [List.length_map]
  · intro row hrow
    unfold matMulT at hrow
    obtain ⟨x, _, rfl⟩ := List.mem_map.mp hrow
    rw [List.length_map]

theorem transposeL_isMat (n : ℕ) (m : List (List ℝ)) :
    IsMat n m.length (transposeL n m) := by
  constructor
  · unfold transposeL
    rw [List.length_map, List.length_range]
  · intro row hrow
    unfold transposeL at hrow
    obtain ⟨x, _, rfl⟩ := List.mem_map.mp hrow
    rw [List.length_map]

theorem splitHeadSlice_isMat (dph h H D : ℕ) (m : List (List ℝ))
    (hm : ∀ row ∈ m, row.length = D) (hD : H * dph = D) (hh : h < H) :
    IsMat m.length dph (splitHeadSlice dph h m) := by
  constructor
  · unfold splitHeadSlice
    rw [List.length_map]
  · intro row hrow
    unfold splitHeadSlice at hrow
    obtain ⟨x, hx, rfl⟩ := List.mem_map.mp hrow
    rw [List.length_take, List.length_drop, hm x hx]
    have hmul : (h + 1) * dph ≤ H * dph := Nat.mul_le_mul_right dph (by omega)
    rw [Nat.succ_mul] at hmul
    omega

theorem maskedFill_length (scores : List (List ℝ)) (mask : List (List Bool)) :
    (maskedFill scores mask).length = min scores.length mask.length := by
  unfold maskedFill
  rw [List.length_zipWith]

theorem softmaxRow_length (s : List ℝ) : (softmaxRow s).length = s.length := by
  unfold softmaxRow
  rw [List.length_map]

theorem combineHeads_isMat (L w : ℕ) (ms : List (List (List ℝ)))
    (h : ∀ m ∈ ms, IsMat L w m) :
    IsMat L (ms.length * w) (combineHeads L ms) := by
  induction ms with
  | nil =>
    constructor
    · unfold combineHeads
      rw [List.foldr_nil, List.length_replicate]
    · intro row hrow
      unfold combineHeads at hrow
      rw [List.foldr_nil] at hrow
      rw [List.eq_of_mem_replicate hrow]
      simp
  | cons m ms ih =>
    have hm := h m (List.mem_cons_self m ms)
    have hrest := ih (fun x hx => h x (List.mem_cons_of_mem m hx))
    unfold combineHeads at hrest ⊢
    rw [List.foldr_cons]
    constructor
    · rw [List.length_zipWith, hm.1, hrest.1]
      omega
    · intro row hrow
      rw [List.mem_iff_getElem] at hrow
      obtain ⟨i, hi, rfl⟩ := hrow
      have him : i < m.length := by
        have hc := hi
        rw [List.length_zipWith] at hc
        omega
      have hif : i < (List.foldr (fun m acc => List.zipWith (· ++ ·) m acc)
          (List.replicate L []) ms).length := by
        have hc := hi
        rw [List.length_zipWith] at hc
        omega
      rw [List.getElem_zipWith]
      rw [List.length_append]
      have h1 : m[i].length = w := hm.2 _ (List.getElem_mem _)
      have h2 : (List.foldr (fun m acc => List.zipWith (· ++ ·) m acc)
          (List.replicate L []) ms)[i].length = ms.length * w :=
        hrest.2 _ (List.getElem_mem _)
      rw [h1, h2, List.length_cons, Nat.succ_mul]
      omega

theorem attnHeadContext_isMat (dph h : ℕ) (drop : ℝ → ℝ)
    (q k v : List (List ℝ)) (mask : List (List Bool))
    (hmask : mask.length = q.length) :
    IsMat q.length dph (attnHeadContext dph h drop q k v mask) := by
  unfold attnHeadContext
  have hW : (((maskedFill (attnHeadScores dph h q k) mask).map softmaxRow).map
      (fun r => r.map drop)).length = q.length := by
    rw [List.length_map, List.length_map, maskedFill_length]
    unfold attnHeadScores
    rw [(matMulT_isMat _ _).1]
    unfold splitHeadSlice
    rw [List.length_map, List.length_map, hmask]
    omega
  have hM := matMulT_isMat
    (((maskedFill (attnHeadScores dph h q k) mask).map softmaxRow).map
      (fun r => r.map drop))
    (transposeL dph (splitHeadSlice dph h v))
  rw [hW, (transposeL_isMat dph _).1] at hM
  exact hM

theorem attentionCore_isMat (heads dph D : ℕ) (drop : ℝ → ℝ) (final : LinearCfg)
    (q k v : List (List ℝ)) (mask : List (List Bool))
    (hfinal : final.WF D D) (hmask : mask.length = q.length) :
    IsMat q.length D (attentionCore heads dph drop final q k v mask) := by
  unfold attentionCore
  have hcomb : IsMat q.length (heads * dph) (combineHeads q.length
      ((List.range heads).map (fun h => attnHeadContext dph h drop q k v mask))) := by
    have hc := combineHeads_isMat q.length dph
      ((List.range heads).map (fun h => attnHeadContext dph h drop q k v mask))
      (fun m hm => by
        obtain ⟨hh, _, rfl⟩ := List.mem_map.mp hm
        exact attnHeadContext_isMat dph hh drop q k v mask hmask)
    rw [List.length_map, List.length_range] at hc
    exact hc
  constructor
  · rw [List.length_map, hcomb.1]
  · intro row hrow
    obtain ⟨y, _, rfl⟩ := List.mem_map.mp hrow
    exact linearCfg_apply_length final D D hfinal y

theorem mha_forward_some_ok (a : MultiHeadedAttention) (D : ℕ) (ha : a.WF D)
    (query mem : List (List ℝ)) (mask : List (List Bool))
    (hmask : mask.length = query.length) :
    ∃ out, a.forward query (some mem) (some mask) = .ok out
      ∧ IsMat query.length D out := by
  obtain ⟨hq, hkv, hqkv, hfinal, hhd⟩ := ha
  refine ⟨_, rfl, ?_⟩
  have hql : (a.linear_q.applySeq query).length = query.length :=
    (linearCfg_applySeq_isMat a.linear_q D D hq query).1
  have h := attentionCore_isMat a.head_count a.dim_per_head D a.drop
    a.final_linear (a.linear_q.applySeq query)
    ((a.linear_kv.applySeq mem).map (fun r => r.take (r.length / 2)))
    ((a.linear_kv.applySeq mem).map (fun r => r.drop (r.length / 2)))
    mask hfinal (by rw [hql, hmask])
  rw [hql] at h
  exact h

theorem dropSeq_isMat (d : ℝ → ℝ) (L D : ℕ) (m : List (List ℝ))
    (hm : IsMat L D m) : IsMat L D (dropSeq d m) := by
  constructor
  · unfold dropSeq
    rw [List.length_map, hm.1]
  · intro row hrow
    unfold dropSeq at hrow
    obtain ⟨x, hx, rfl⟩ := List.mem_map.mp hrow
    rw [List.length_map]
    exact hm.2 x hx

theorem seqAdd_isMat (L D : ℕ) (a b : List (List ℝ))
    (ha : IsMat L D a) (hb : IsMat L D b) : IsMat L D (seqAdd a b) := by
  constructor
  · unfold seqAdd
    rw [List.length_zipWith, ha.1, hb.1]
    omega
  · intro row hrow
    unfold seqAdd at hrow
    rw [List.mem_iff_getElem] at hrow
    obtain ⟨i, hi, rfl⟩ := hrow
    rw [List.length_zipWith] at hi
    have hia : i < a.length := by omega
    have hib : i < b.length := by omega
    rw [List.getElem_zipWith, List.length_zipWith]
    have h1 : a[i].length = D := ha.2 _ (List.getElem_mem _)
    have h2 : b[i].length = D := hb.2 _ (List.getElem_mem _)
    rw [h1, h2]
    omega

theorem layerNormRow_length (n : LayerNormCfg) (D : ℕ) (hn : n.WF D)
    (x : List ℝ) (hx : x.length = D) : (layerNormRow n x).length = D := by
  unfold layerNormRow
  rw [List.length_zipWith, List.length_zip, hn.1, hn.2, hx]
  omega

theorem normSeq_isMat (n : LayerNormCfg) (D L : ℕ) (hn : n.WF D)
    (m : List (List ℝ)) (hm : IsMat L D m) :
    IsMat L D (m.map (layerNormRow n)) := by
  constructor
  · rw [List.length_map, hm.1]
  · intro row hrow
    obtain ⟨x, hx, rfl⟩ := List.mem_map.mp hrow
    exact layerNormRow_length n D hn x (hm.2 x hx)

theorem feedForward_isMat (f : FeedForward) (D inner L : ℕ) (hf : f.WF D inner)
    (x : List (List ℝ)) (hx : x.length = L) : IsMat L D (f.forward x) := by
  unfold FeedForward.forward LinearCfg.applySeq
  constructor
  · rw [List.length_map, List.length_map, List.length_map, List.length_map, hx]
  · intro row hrow
    obtain ⟨y, _, rfl⟩ := List.mem_map.mp hrow
    exact linearCfg_apply_length f.linear_out D inner hf.2 y

theorem decoderLayer_forward_full_shape (l : DecoderLayer) (D inner L : ℕ)
    (hl : l.WF D inner) (x enc_out : List (List ℝ)) (sm tm : List (List Bool))
    (hx : IsMat L D x) (hsm : sm.length = L) (htm : tm.length = L) :
    ∃ out, l.forward x enc_out (some sm) (some tm) none = .ok (out, x)
      ∧ IsMat L D out := by
  obtain ⟨hself, hsrc, hff, hn0, hn1, hn2⟩ := hl
  obtain ⟨y1, hy1, hy1M⟩ := mha_forward_some_ok l.self_attn D hself x x tm
    (by rw [htm, hx.1])
  rw [hx.1] at hy1M
  have hx1M : IsMat L D ((seqAdd x (dropSeq l.drop y1)).map (layerNormRow l.norm0)) :=
    normSeq_isMat l.norm0 D L hn0 _
      (seqAdd_isMat L D _ _ hx (dropSeq_isMat l.drop L D _ hy1M))
  obtain ⟨y2, hy2, hy2M⟩ := mha_forward_some_ok l.src_attn D hsrc
    ((seqAdd x (dropSeq l.drop y1)).map (layerNormRow l.norm0)) enc_out sm
    (by rw [hsm, hx1M.1])
  rw [hx1M.1] at hy2M
  have hx2M : IsMat L D ((seqAdd
      ((seqAdd x (dropSeq l.drop y1)).map (layerNormRow l.norm0))
      (dropSeq l.drop y2)).map (layerNormRow l.norm1)) :=
    normSeq_isMat l.norm1 D L hn1 _
      (seqAdd_isMat L D _ _ hx1M (dropSeq_isMat l.drop L D _ hy2M))
  have hy3M : IsMat L D (l.feed_forward.forward ((seqAdd
      ((seqAdd x (dropSeq l.drop y1)).map (layerNormRow l.norm0))
      (dropSeq l.drop y2)).map (layerNormRow l.norm1))) :=
    feedForward_isMat l.feed_forward D inner L hff _ hx2M.1
  refine ⟨List.map (layerNormRow l.norm2) (seqAdd
      (List.map (layerNormRow l.norm1) (seqAdd
        (List.map (layerNormRow l.norm0) (seqAdd x (dropSeq l.drop y1)))
        (dropSeq l.drop y2)))
      (dropSeq l.drop (l.feed_forward.forward
        (List.map (layerNormRow l.norm1) (seqAdd
          (List.map (layerNormRow l.norm0) (seqAdd x (dropSeq l.drop y1)))
          (dropSeq l.drop y2)))))), ?_, ?_⟩
  · simp only [DecoderLayer.forward]
    rw [hy1, exceptBindOk, hy2, exceptBindOk]
    rfl
  · exact normSeq_isMat l.norm2 D L hn2 _
      (seqAdd_isMat L D _ _ hx2M (dropSeq_isMat l.drop L D _ hy3M))

theorem decoderRunLayers_full_shape (enc_out : List (List ℝ))
    (sm tm : List (List Bool)) (L D inner : ℕ)
    (hsm : sm.length = L) (htm : tm.length = L) :
    ∀ ls : List DecoderLayer, (∀ l ∈ ls, l.WF D inner) →
    ∀ (i : ℕ) (output : List (List ℝ)), IsMat L D output →
    ∃ out saved, decoderRunLayers enc_out sm tm none i ls output = .ok (out, saved)
      ∧ IsMat L D out ∧ saved.length = ls.length ∧ ∀ s ∈ saved, IsMat L D s := by
  intro ls
  induction ls with
  | nil =>
    intro _ i output hout
    exact ⟨output, [], rfl, hout, rfl, by simp⟩
  | cons l ls ih =>
    intro hwf i output hout
    obtain ⟨out1, hout1, hout1M⟩ := decoderLayer_forward_full_shape l D inner L
      (hwf l (List.mem_cons_self l ls)) output enc_out sm tm hout hsm htm
    obtain ⟨out2, saved2, hrun, hout2M, hlen2, hmem2⟩ :=
      ih (fun l' hl' => hwf l' (List.mem_cons_of_mem l hl')) (i + 1) out1 hout1M
    refine ⟨out2, output :: saved2, ?_, hout2M, ?_, ?_⟩
    · simp only [decoderRunLayers]
      rw [hout1, exceptBindOk, hrun, exceptBindOk]
      rfl
    · simp [hlen2]
    · intro s hs
      rcases List.mem_cons.mp hs with h | h
      · rw [h]; exact hout
      · exact hmem2 s h

theorem positional_encoding_2_mem_row_length (dim n : ℕ) (row : List ℝ)
    (h : row ∈ positional_encoding_2 dim n) : row.length = dim := by
  unfold positional_encoding_2 at h
  obtain ⟨p, _, rfl⟩ := List.mem_map.mp h
  rw [List.length_map, List.length_range]

theorem embedding_forward_isMat (e : Embedding) (x : List ℕ) (t : ℕ)
    (hcap : t + x.length ≤ e.pe.length)
    (hrows : ∀ row ∈ e.pe, row.length = e.embedding_dim) :
    ∃ m, e.forward x t = .ok m ∧ IsMat x.length e.embedding_dim m := by
  refine ⟨_, embedding_forward_eq_ok e x t hcap, ?_, ?_⟩
  · rw [List.length_map, List.length_zipWith, List.length_map, List.length_take,
      List.length_drop]
    omega
  · intro row hrow
    obtain ⟨y, hy, rfl⟩ := List.mem_map.mp hrow
    rw [List.mem_iff_getElem] at hy
    obtain ⟨i, hi, rfl⟩ := hy
    rw [List.length_zipWith] at hi
    have hix : i < x.length := by
      rw [List.length_map] at hi
      omega
    have hislice : i < ((e.pe.drop t).take x.length).length := by omega
    have hixm : i < (x.map (fun id => (List.range e.embedding_dim).map
        (fun c => e.weight id c * Real.sqrt (e.embedding_dim : ℝ)))).length := by
      rw [List.length_map]
      exact hix
    rw [List.getElem_zipWith, List.length_map, List.length_zipWith]
    have h1 : (x.map (fun id => (List.range e.embedding_dim).map
        (fun c => e.weight id c * Real.sqrt (e.embedding_dim : ℝ))))[i].length
        = e.embedding_dim := by
      rw [List.getElem_map, List.length_map, List.length_range]
    have h2 : ((e.pe.drop t).take x.length)[i].length = e.embedding_dim := by
      rw [List.getElem_take, List.getElem_drop]
      exact hrows _ (List.getElem_mem _)
    rw [h1, h2]
    omega

theorem decoderTgtMask_length (pad : List Bool) (L : ℕ) :
    (decoderTgtMask pad L).length = L := by
  unfold decoderTgtMask
  rw [List.length_map, List.length_range]

/-! ## C8: full-sequence decoder output shapes -/

/-- C8. In full-sequence mode (`previous = None`, `timestep = 0`), a
well-formed decoder returns hidden states of shape `length × model_dim`
together with a per-layer `all_input` stack of `num_layers` entries, each of
shape `length × model_dim`; and every full-sequence `DecoderLayer.forward`
call returns as its `all_input` exactly its own self-attention input `x`.
(The batch dimension is modelled per row; in the source the stack is
`batch × num_layers × length × model_dim` with independent batch rows.) -/
theorem decoder_full_mode_shapes (d : Decoder) (D inner : ℕ) (hd : d.WF D inner)
    (tgt : List ℕ) (enc_out : List (List ℝ)) (src_pad tgt_pad : List Bool)
    (hlen : tgt.length ≤ 1000) :
    (∃ out saved, d.forward tgt enc_out src_pad tgt_pad none 0 = .ok (out, saved)
      ∧ IsMat tgt.length D out ∧ saved.length = d.layers.length
      ∧ ∀ s ∈ saved, IsMat tgt.length D s)
    ∧ (∀ (l : DecoderLayer) (x enc : List (List ℝ))
        (sm tm : Option (List (List Bool))) (r : List (List ℝ) × List (List ℝ)),
        l.forward x enc sm tm none = .ok r → r.2 = x) := by
  obtain ⟨hdim, hpe, hlayers⟩ := hd
  constructor
  · have hcap : 0 + tgt.length ≤ d.embedding.pe.length := by
      rw [hpe, positional_encoding_2_length]
      omega
    obtain ⟨m, hm, hmM⟩ := embedding_forward_isMat d.embedding tgt 0 hcap
      (by
        intro row hrow
        rw [hdim]
        exact positional_encoding_2_mem_row_length D 5000 row (hpe ▸ hrow))
    rw [hdim] at hmM
    obtain ⟨out, saved, hrun, houtM, hsavedlen, hsavedmem⟩ :=
      decoderRunLayers_full_shape enc_out (List.replicate tgt.length src_pad)
        (decoderTgtMask tgt_pad tgt.length) tgt.length D inner
        (List.length_replicate _ _) (decoderTgtMask_length _ _)
        d.layers hlayers 0 m hmM
    refine ⟨out, saved, ?_, houtM, hsavedlen, hsavedmem⟩
    unfold Decoder.forward
    rw [hm, exceptBindOk, if_pos hlen]
    exact hrun
  · intro l x enc sm tm r hr
    simp only [DecoderLayer.forward] at hr
    obtain ⟨y1, _, hrest⟩ := exceptBind_eq_ok _ _ _ hr
    obtain ⟨y2, _, hrest2⟩ := exceptBind_eq_ok _ _ _ hrest
    simp only [pure, Except.pure] at hrest2
    have h := Except.ok.inj hrest2
    rw [← h]

/-- Witness for C8: a one-layer decoder (`model_dim = 2`, feed-forward
inner size 1, zero weights, unit norms), single-token target, one encoder
position. -/
theorem decoder_full_mode_shapes_witness :
    (∃ out saved, Decoder.forward
        ⟨Embedding.init 2 1 0 (fun _ _ => 0) id,
          [⟨⟨1, 2, ⟨[[0, 0], [0, 0]], [0, 0]⟩,
              ⟨[[0, 0], [0, 0], [0, 0], [0, 0]], [0, 0, 0, 0]⟩,
              ⟨[[0, 0], [0, 0], [0, 0], [0, 0], [0, 0], [0, 0]], [0, 0, 0, 0, 0, 0]⟩,
              ⟨[[0, 0], [0, 0]], [0, 0]⟩, id⟩,
            ⟨1, 2, ⟨[[0, 0], [0, 0]], [0, 0]⟩,
              ⟨[[0, 0], [0, 0], [0, 0], [0, 0]], [0, 0, 0, 0]⟩,
              ⟨[[0, 0], [0, 0], [0, 0], [0, 0], [0, 0], [0, 0]], [0, 0, 0, 0, 0, 0]⟩,
              ⟨[[0, 0], [0, 0]], [0, 0]⟩, id⟩,
            ⟨⟨[[0, 0]], [0]⟩, ⟨[[0], [0]], [0, 0]⟩, id⟩,
            ⟨[1, 1], [0, 0]⟩, ⟨[1, 1], [0, 0]⟩, ⟨[1, 1], [0, 0]⟩, id⟩]⟩
        [0] [[0, 0]] [false] [false] none 0 = .ok (out, saved)
      ∧ IsMat ([0] : List ℕ).length 2 out
      ∧ saved.length = (⟨Embedding.init 2 1 0 (fun _ _ => 0) id,
          [⟨⟨1, 2, ⟨[[0, 0], [0, 0]], [0, 0]⟩,
              ⟨[[0, 0], [0, 0], [0, 0], [0, 0]], [0, 0, 0, 0]⟩,
              ⟨[[0, 0], [0, 0], [0, 0], [0, 0], [0, 0], [0, 0]], [0, 0, 0, 0, 0, 0]⟩,
              ⟨[[0, 0], [0, 0]], [0, 0]⟩, id⟩,
            ⟨1, 2, ⟨[[0, 0], [0, 0]], [0, 0]⟩,
              ⟨[[0, 0], [0, 0], [0, 0], [0, 0]], [0, 0, 0, 0]⟩,
              ⟨[[0, 0], [0, 0], [0, 0], [0, 0], [0, 0], [0, 0]], [0, 0, 0, 0, 0, 0]⟩,
              ⟨[[0, 0], [0, 0]], [0, 0]⟩, id⟩,
            ⟨⟨[[0, 0]], [0]⟩, ⟨[[0], [0]], [0, 0]⟩, id⟩,
            ⟨[1, 1], [0, 0]⟩, ⟨[1, 1], [0, 0]⟩, ⟨[1, 1], [0, 0]⟩, id⟩]⟩ : Decoder).layers.length
      ∧ ∀ s ∈ saved, IsMat ([0] : List ℕ).length 2 s)
    ∧ (∀ (l : DecoderLayer) (x enc : List (List ℝ))
        (sm tm : Option (List (List Bool))) (r : List (List ℝ) × List (List ℝ)),
        l.forward x enc sm tm none = .ok r → r.2 = x) := by
  apply decoder_full_mode_shapes _ 2 1 ?_ [0] [[0, 0]] [false] [false] (by norm_num)
  refine ⟨embedding_init_dim 2 1 0 (fun _ _ => 0) id,
    embedding_init_pe 2 1 0 (fun _ _ => 0) id, ?_⟩
  intro l hl
  rw [List.mem_singleton] at hl
  subst hl
  simp [DecoderLayer.WF, MultiHeadedAttention.WF, LinearCfg.WF, IsMat,
    FeedForward.WF, LayerNormCfg.WF]

/-! ## Entry-level lemmas for the masked-attention bound -/

theorem listSum_eq_sum_getD (l : List ℝ) :
    l.sum = ∑ i ∈ Finset.range l.length, l.getD i 0 := by
  induction l with
  | nil => simp
  | cons x xs ih =>
    rw [List.sum_cons, List.length_cons, Finset.sum_range_succ']
    simp only [List.getD_cons_succ, List.getD_cons_zero]
    rw [ih]
    ring

theorem dotL_sub_single (a b b' : List ℝ) (j : ℕ) (hlen : b'.length = b.length)
    (hoff : ∀ kk, kk ≠ j → b'.getD kk 0 = b.getD kk 0) :
    dotL a b' - dotL a b = a.getD j 0 * (b'.getD j 0 - b.getD j 0) := by
  rw [dotL_eq_sum, dotL_eq_sum, hlen, ← Finset.sum_sub_distrib]
  have hterm : ∀ kk ∈ Finset.range (min a.length b.length), kk ≠ j →
      a.getD kk 0 * b'.getD kk 0 - a.getD kk 0 * b.getD kk 0 = 0 := by
    intro kk _ hkk
    rw [hoff kk hkk]
    ring
  by_cases hj : j ∈ Finset.range (min a.length b.length)
  · rw [Finset.sum_eq_single j hterm (fun h => absurd hj h)]
    ring
  · rw [Finset.sum_eq_zero (fun kk hkk => hterm kk hkk (fun he => hj (he ▸ hkk)))]
    rw [Finset.mem_range] at hj
    by_cases hja : j < a.length
    · have hjb : b.length ≤ j := by omega
      rw [getD_len_le b 0 j hjb, getD_len_le b' 0 j (by omega)]
      ring
    · rw [getD_len_le a 0 j (by omega)]
      ring

theorem dotL_sub_bound (a b b' : List ℝ) (M : ℝ) (hM : 0 ≤ M)
    (hlen : b'.length = b.length)
    (hdiff : ∀ f, |b'.getD f 0 - b.getD f 0| ≤ M) :
    |dotL a b' - dotL a b| ≤ (a.map (fun t => |t|)).sum * M := by
  rw [dotL_eq_sum, dotL_eq_sum, hlen, ← Finset.sum_sub_distrib]
  have h1 : |∑ i ∈ Finset.range (min a.length b.length),
      (a.getD i 0 * b'.getD i 0 - a.getD i 0 * b.getD i 0)|
      ≤ ∑ i ∈ Finset.range (min a.length b.length), |a.getD i 0| * M := by
    refine (Finset.abs_sum_le_sum_abs _ _).trans (Finset.sum_le_sum ?_)
    intro i _
    rw [← mul_sub, abs_mul]
    exact mul_le_mul_of_nonneg_left (hdiff i) (abs_nonneg _)
  refine h1.trans ?_
  rw [← Finset.sum_mul]
  refine mul_le_mul_of_nonneg_right ?_ hM
  have h2 : (a.map (fun t => |t|)).sum
      = ∑ i ∈ Finset.range a.length, |a.getD i 0| := by
    rw [listSum_eq_sum_getD, List.length_map]
    refine Finset.sum_congr rfl ?_
    intro i hi
    rw [Finset.mem_range] at hi
    rw [map_getD_lt _ _ _ 0 0 hi]
  rw [h2]
  refine Finset.sum_le_sum_of_subset_of_nonneg ?_ ?_
  · intro i hi
    rw [Finset.mem_range] at hi ⊢
    omega
  · intro i _ _
    exact abs_nonneg _

theorem mapGetD_col (m : List (List ℝ)) (d j : ℕ) :
    (m.map (fun r => r.getD d 0)).getD j 0 = (m.getD j []).getD d 0 := by
  by_cases hj : j < m.length
  · exact map_getD_lt _ _ _ [] 0 hj
  · rw [getD_len_le _ _ _ (by rw [List.length_map]; omega),
      getD_len_le m [] j (by omega)]
    simp

theorem splitHeadSlice_getD (dph h : ℕ) (v : List (List ℝ)) (j : ℕ) :
    (splitHeadSlice dph h v).getD j [] = ((v.getD j []).drop (h * dph)).take dph := by
  by_cases hj : j < v.length
  · exact map_getD_lt _ _ _ [] [] hj
  · rw [getD_len_le _ _ _ (by unfold splitHeadSlice; rw [List.length_map]; omega),
      getD_len_le _ _ _ (by omega)]
    simp

theorem matMulT_entry (A B : List (List ℝ)) (i d : ℕ) :
    ((matMulT A B).getD i []).getD d 0
      = if i < A.length ∧ d < B.length
        then dotL (A.getD i []) (B.getD d []) else 0 := by
  by_cases hi : i < A.length
  · unfold matMulT
    rw [map_getD_lt _ _ _ [] [] hi]
    by_cases hd : d < B.length
    · rw [map_getD_lt _ _ _ [] 0 hd, if_pos ⟨hi, hd⟩]
    · rw [getD_len_le _ _ _ (by rw [List.length_map]; omega), if_neg (by tauto)]
  · rw [getD_len_le (matMulT A B) [] i
        (by unfold matMulT; rw [List.length_map]; omega),
      if_neg (by tauto)]
    simp

theorem softmaxRow_getD (s : List ℝ) (j : ℕ) (hj : j < s.length) :
    (softmaxRow s).getD j 0 = Real.exp (s.getD j 0) / ((s.map Real.exp).sum) := by
  unfold softmaxRow
  rw [map_getD_lt _ _ _ 0 0 hj]

theorem getD_true_lt (l : List Bool) (j : ℕ) (h : l.getD j false = true) :
    j < l.length := by
  by_contra hc
  rw [getD_len_le l false j (by omega)] at h
  exact absurd h (by simp)

theorem getD_mem_of_lt {α : Type _} (l : List α) (d : α) (i : ℕ)
    (h : i < l.length) : l.getD i d ∈ l := by
  rw [List.getD_eq_getElem l d h]
  exact List.getElem_mem _

theorem maskedFill_getD_row (S : List (List ℝ)) (M : List (List Bool)) (i : ℕ)
    (hiS : i < S.length) (hiM : i < M.length) :
    (maskedFill S M).getD i []
      = List.zipWith (fun x b => if b then (-1e20 : ℝ) else x)
        (S.getD i []) (M.getD i []) := by
  unfold maskedFill
  exact zipWith_getD_lt _ _ _ i [] [] [] hiS hiM

theorem maskedFill_entry_masked (srow : List ℝ) (mrow : List Bool) (j : ℕ)
    (hjs : j < srow.length) (hm : mrow.getD j false = true) :
    (List.zipWith (fun x b => if b then (-1e20 : ℝ) else x) srow mrow).getD j 0
      = (-1e20 : ℝ) := by
  have hjm : j < mrow.length := getD_true_lt mrow j hm
  rw [zipWith_getD_lt _ _ _ j 0 false 0 hjs hjm, hm]
  simp

theorem masked_softmax_bound (S : List (List ℝ)) (mask : List (List Bool))
    (i j : ℕ) (hiS : i < S.length) (hiM : i < mask.length)
    (hj : j < (S.getD i []).length)
    (hm : ∀ mrow ∈ mask, mrow.getD j false = true)
    (hZ : ∀ frow ∈ maskedFill S mask, (1 : ℝ) ≤ ((frow.map Real.exp).sum)) :
    0 ≤ (softmaxRow ((maskedFill S mask).getD i [])).getD j 0
    ∧ (softmaxRow ((maskedFill S mask).getD i [])).getD j 0
        ≤ Real.exp (-(1e20 : ℝ)) := by
  have hrow := maskedFill_getD_row S mask i hiS hiM
  have hmask_i : (mask.getD i []).getD j false = true :=
    hm _ (getD_mem_of_lt mask [] i hiM)
  have hjm : j < (mask.getD i []).length := getD_true_lt _ _ hmask_i
  have hfrow_len : j < ((maskedFill S mask).getD i []).length := by
    rw [hrow, List.length_zipWith]
    omega
  have hentry : ((maskedFill S mask).getD i []).getD j 0 = (-1e20 : ℝ) := by
    rw [hrow]
    exact maskedFill_entry_masked _ _ _ hj hmask_i
  have hZrow : (1 : ℝ) ≤ ((((maskedFill S mask).getD i []).map Real.exp).sum) := by
    refine hZ _ (getD_mem_of_lt _ [] i ?_)
    rw [maskedFill_length]
    omega
  rw [softmaxRow_getD _ _ hfrow_len, hentry]
  constructor
  · exact div_nonneg (Real.exp_pos _).le (le_trans zero_le_one hZrow)
  · exact div_le_self (Real.exp_pos _).le hZrow

theorem transposeL_getD (n : ℕ) (m : List (List ℝ)) (d : ℕ) (hd : d < n) :
    (transposeL n m).getD d [] = m.map (fun r => r.getD d 0) := by
  unfold transposeL
  exact rangeMap_getD [] _ n d hd

theorem matMulT_getD_row (A B : List (List ℝ)) (i : ℕ) (hi : i < A.length) :
    (matMulT A B).getD i [] = B.map (fun br => dotL (A.getD i []) br) := by
  unfold matMulT
  exact map_getD_lt _ _ _ [] [] hi

theorem attnHeadScores_row_len (dph h : ℕ) (q k : List (List ℝ)) (i : ℕ)
    (hi : i < ((splitHeadSlice dph h q).map
      (fun r => r.map (fun x => x * (dph : ℝ) ^ (-(0.5) : ℝ)))).length) :
    ((attnHeadScores dph h q k).getD i []).length = k.length := by
  unfold attnHeadScores
  rw [matMulT_getD_row _ _ i hi, List.length_map]
  unfold splitHeadSlice
  rw [List.length_map]

theorem weights_getD (S : List (List ℝ)) (mask : List (List Bool)) (i : ℕ)
    (hi : i < min S.length mask.length) :
    ((((maskedFill S mask).map softmaxRow).map (fun r => r.map id)).getD i [])
      = softmaxRow ((maskedFill S mask).getD i []) := by
  have hlen : i < (maskedFill S mask).length := by
    rw [maskedFill_length]
    omega
  rw [map_getD_lt _ _ _ [] [] (by rw [List.length_map]; exact hlen)]
  rw [map_getD_lt _ _ _ [] [] hlen]
  rw [List.map_id]

theorem attnHeadContext_entry_diff (dph h : ℕ) (q k v v' : List (List ℝ))
    (mask : List (List Bool)) (j : ℕ) (dv : ℝ) (hdv : 0 ≤ dv)
    (hvlen : v'.length = v.length) (hvk : v.length = k.length)
    (hrows : ∀ kk, kk ≠ j → v'.getD kk [] = v.getD kk [])
    (hdiff : ∀ c, |(v'.getD j []).getD c 0 - (v.getD j []).getD c 0| ≤ dv)
    (hmask : ∀ mrow ∈ mask, mrow.getD j false = true)
    (hZ : ∀ frow ∈ maskedFill (attnHeadScores dph h q k) mask,
      (1 : ℝ) ≤ ((frow.map Real.exp).sum))
    (i d : ℕ) :
    |((attnHeadContext dph h id q k v' mask).getD i []).getD d 0
      - ((attnHeadContext dph h id q k v mask).getD i []).getD d 0|
      ≤ Real.exp (-(1e20 : ℝ)) * dv := by
  have hexpdv : 0 ≤ Real.exp (-(1e20 : ℝ)) * dv :=
    mul_nonneg (Real.exp_pos _).le hdv
  unfold attnHeadContext
  rw [matMulT_entry, matMulT_entry,
    (transposeL_isMat dph (splitHeadSlice dph h v')).1,
    (transposeL_isMat dph (splitHeadSlice dph h v)).1]
  split_ifs with hc
  · obtain ⟨hiW, hd⟩ := hc
    rw [transposeL_getD dph (splitHeadSlice dph h v') d hd,
      transposeL_getD dph (splitHeadSlice dph h v) d hd]
    have hlen : ((splitHeadSlice dph h v').map (fun r => r.getD d 0)).length
        = ((splitHeadSlice dph h v).map (fun r => r.getD d 0)).length := by
      rw [List.length_map, List.length_map]
      unfold splitHeadSlice
      rw [List.length_map, List.length_map, hvlen]
    have hoff : ∀ kk, kk ≠ j →
        ((splitHeadSlice dph h v').map (fun r => r.getD d 0)).getD kk 0
          = ((splitHeadSlice dph h v).map (fun r => r.getD d 0)).getD kk 0 := by
      intro kk hkk
      rw [mapGetD_col, mapGetD_col, splitHeadSlice_getD, splitHeadSlice_getD,
        hrows kk hkk]
    rw [dotL_sub_single _ _ _ j hlen hoff, abs_mul]
    have hiW' : i < min (attnHeadScores dph h q k).length mask.length := by
      rw [List.length_map, List.length_map, maskedFill_length] at hiW
      exact hiW
    rw [weights_getD _ _ i hiW']
    by_cases hjv : j < v.length
    · have hδ : |((splitHeadSlice dph h v').map (fun r => r.getD d 0)).getD j 0
          - ((splitHeadSlice dph h v).map (fun r => r.getD d 0)).getD j 0| ≤ dv := by
        rw [mapGetD_col, mapGetD_col, splitHeadSlice_getD, splitHeadSlice_getD,
          dropTake_getD, dropTake_getD, if_pos hd, if_pos hd]
        exact hdiff (h * dph + d)
      have hjS : j < ((attnHeadScores dph h q k).getD i []).length := by
        rw [attnHeadScores_row_len dph h q k i (by
          unfold attnHeadScores at hiW'
          rw [(matMulT_isMat _ _).1] at hiW'
          omega)]
        omega
      have hbound := masked_softmax_bound (attnHeadScores dph h q k) mask i j
        (by omega) (by omega) hjS hmask hZ
      rw [abs_of_nonneg hbound.1]
      exact mul_le_mul hbound.2 hδ (abs_nonneg _) (Real.exp_pos _).le
    · have hz1 : ((splitHeadSlice dph h v').map (fun r => r.getD d 0)).getD j 0
          = 0 := by
        rw [mapGetD_col, getD_len_le (splitHeadSlice dph h v') [] j (by
          unfold splitHeadSlice
          rw [List.length_map]
          omega)]
        simp
      have hz2 : ((splitHeadSlice dph h v).map (fun r => r.getD d 0)).getD j 0
          = 0 := by
        rw [mapGetD_col, getD_len_le (splitHeadSlice dph h v) [] j (by
          unfold splitHeadSlice
          rw [List.length_map]
          omega)]
        simp
      rw [hz1, hz2]
      simpa using hexpdv
  · simpa using hexpdv

theorem getD_append_entry (a b : List ℝ) (f : ℕ) :
    (a ++ b).getD f 0
      = if f < a.length then a.getD f 0 else b.getD (f - a.length) 0 := by
  split
  · rename_i hf
    exact List.getD_append a b 0 f hf
  · rename_i hf
    exact List.getD_append_right a b 0 f (by omega)

theorem combineHeads_length_eq (L : ℕ) :
    ∀ ms ms' : List (List (List ℝ)), ms'.length = ms.length →
    (∀ n, (ms'.getD n []).length = (ms.getD n []).length) →
    (combineHeads L ms').length = (combineHeads L ms).length := by
  intro ms
  induction ms with
  | nil =>
    intro ms' hl _
    rw [List.length_eq_zero.mp hl]
  | cons m rest ih =>
    intro ms' hl hrows
    cases ms' with
    | nil => simp at hl
    | cons m' rest' =>
      have h0 : m'.length = m.length := by simpa using hrows 0
      have hrest := ih rest' (by simpa using hl) (fun n => by
        simpa [List.getD_cons_succ] using hrows (n + 1))
      unfold combineHeads at hrest ⊢
      rw [List.foldr_cons, List.foldr_cons, List.length_zipWith,
        List.length_zipWith, h0, hrest]

theorem combineHeads_entry_diff (L : ℕ) (M : ℝ) (hM : 0 ≤ M) :
    ∀ ms ms' : List (List (List ℝ)), ms'.length = ms.length →
    (∀ n, (ms'.getD n []).length = (ms.getD n []).length) →
    (∀ n i, ((ms'.getD n []).getD i []).length
      = ((ms.getD n []).getD i []).length) →
    (∀ n i f, |((ms'.getD n []).getD i []).getD f 0
      - ((ms.getD n []).getD i []).getD f 0| ≤ M) →
    ∀ i f, |((combineHeads L ms').getD i []).getD f 0
      - ((combineHeads L ms).getD i []).getD f 0| ≤ M := by
  intro ms
  induction ms with
  | nil =>
    intro ms' hl _ _ _ i f
    rw [List.length_eq_zero.mp hl]
    simpa using hM
  | cons m rest ih =>
    intro ms' hl hrowc hrowlen hdiff i f
    cases ms' with
    | nil => simp at hl
    | cons m' rest' =>
      have h0c : m'.length = m.length := by simpa using hrowc 0
      have h0len : ∀ i, (m'.getD i []).length = (m.getD i []).length :=
        fun i => by simpa using hrowlen 0 i
      have h0diff : ∀ i f, |(m'.getD i []).getD f 0 - (m.getD i []).getD f 0| ≤ M :=
        fun i f => by simpa using hdiff 0 i f
      have hrl : rest'.length = rest.length := by simpa using hl
      have hrc : ∀ n, (rest'.getD n []).length = (rest.getD n []).length :=
        fun n => by simpa [List.getD_cons_succ] using hrowc (n + 1)
      have hrlen : ∀ n i, ((rest'.getD n []).getD i []).length
          = ((rest.getD n []).getD i []).length :=
        fun n i => by simpa [List.getD_cons_succ] using hrowlen (n + 1) i
      have hrdiff : ∀ n i f, |((rest'.getD n []).getD i []).getD f 0
          - ((rest.getD n []).getD i []).getD f 0| ≤ M :=
        fun n i f => by simpa [List.getD_cons_succ] using hdiff (n + 1) i f
      have ihrest := ih rest' hrl hrc hrlen hrdiff
      have hacc_len := combineHeads_length_eq L rest rest' hrl hrc
      unfold combineHeads at ihrest hacc_len ⊢
      rw [List.foldr_cons, List.foldr_cons]
      by_cases hi : i < min m.length
          (List.foldr (fun m acc => List.zipWith (· ++ ·) m acc)
            (List.replicate L []) rest).length
      · rw [zipWith_getD_lt (· ++ ·) m'
            (List.foldr (fun m acc => List.zipWith (· ++ ·) m acc)
              (List.replicate L []) rest') i [] [] []
            (by rw [h0c]; omega) (by rw [hacc_len]; omega)]
        rw [zipWith_getD_lt (· ++ ·) m
            (List.foldr (fun m acc => List.zipWith (· ++ ·) m acc)
              (List.replicate L []) rest) i [] [] [] (by omega) (by omega)]
        rw [getD_append_entry, getD_append_entry, h0len i]
        split
        · exact h0diff i f
        · exact ihrest i (f - (m.getD i []).length)
      · rw [getD_len_le (List.zipWith (· ++ ·) m _) [] i
            (by rw [List.length_zipWith]; omega),
          getD_len_le (List.zipWith (· ++ ·) m' _) [] i
            (by rw [List.length_zipWith, h0c, hacc_len]; omega)]
        simpa using hM

theorem dotL_eq_sum_left (a b : List ℝ) :
    dotL a b = ∑ i ∈ Finset.range a.length, a.getD i 0 * b.getD i 0 := by
  rw [dotL_eq_sum]
  refine Finset.sum_subset ?_ ?_
  · intro x hx
    rw [Finset.mem_range] at hx ⊢
    omega
  · intro x hx hnx
    rw [Finset.mem_range] at hx
    rw [Finset.mem_range] at hnx
    rw [getD_len_le b 0 x (by omega)]
    ring

theorem dotL_sub_bound_left (a b b' : List ℝ) (M : ℝ) (hM : 0 ≤ M)
    (hdiff : ∀ f, |b'.getD f 0 - b.getD f 0| ≤ M) :
    |dotL a b' - dotL a b| ≤ (a.map (fun t => |t|)).sum * M := by
  rw [dotL_eq_sum_left, dotL_eq_sum_left, ← Finset.sum_sub_distrib]
  have h1 : |∑ i ∈ Finset.range a.length,
      (a.getD i 0 * b'.getD i 0 - a.getD i 0 * b.getD i 0)|
      ≤ ∑ i ∈ Finset.range a.length, |a.getD i 0| * M := by
    refine (Finset.abs_sum_le_sum_abs _ _).trans (Finset.sum_le_sum ?_)
    intro i _
    rw [← mul_sub, abs_mul]
    exact mul_le_mul_of_nonneg_left (hdiff i) (abs_nonneg _)
  refine h1.trans ?_
  rw [← Finset.sum_mul]
  refine mul_le_mul_of_nonneg_right (le_of_eq ?_) hM
  rw [listSum_eq_sum_getD, List.length_map]
  refine Finset.sum_congr rfl ?_
  intro i hi
  rw [Finset.mem_range] at hi
  rw [map_getD_lt _ _ _ 0 0 hi]

theorem linearRow_getD (W : List (List ℝ)) (b x : List ℝ) (c : ℕ) :
    (linearRow W b x).getD c 0
      = if c < min W.length b.length
        then dotL (W.getD c []) x + b.getD c 0 else 0 := by
  unfold linearRow
  split
  · rename_i hc
    rw [zipWith_getD_lt _ _ _ c [] 0 0 (by omega) (by omega)]
  · rename_i hc
    rw [getD_len_le (List.zipWith (fun w bi => dotL w x + bi) W b) 0 c
      (by rw [List.length_zipWith]; omega)]

theorem attnHeadContext_length (dph h : ℕ) (drop : ℝ → ℝ)
    (q k v : List (List ℝ)) (mask : List (List Bool)) :
    (attnHeadContext dph h drop q k v mask).length
      = min (attnHeadScores dph h q k).length mask.length := by
  unfold attnHeadContext
  rw [(matMulT_isMat _ _).1, List.length_map, List.length_map, maskedFill_length]

theorem attnHeadContext_row_len (dph h : ℕ) (drop : ℝ → ℝ)
    (q k v : List (List ℝ)) (mask : List (List Bool)) :
    ∀ r ∈ attnHeadContext dph h drop q k v mask, r.length = dph := by
  intro r hr
  unfold attnHeadContext at hr
  have h2 := (matMulT_isMat _ (transposeL dph (splitHeadSlice dph h v))).2 r hr
  rw [(transposeL_isMat dph _).1] at h2
  exact h2

theorem attnHeadContext_getD_len (dph h : ℕ) (drop : ℝ → ℝ)
    (q k v : List (List ℝ)) (mask : List (List Bool)) (i : ℕ) :
    ((attnHeadContext dph h drop q k v mask).getD i []).length
      = if i < min (attnHeadScores dph h q k).length mask.length
        then dph else 0 := by
  by_cases hi : i < (attnHeadContext dph h drop q k v mask).length
  · rw [if_pos (by rw [← attnHeadContext_length dph h drop q k v mask]; exact hi)]
    exact attnHeadContext_row_len dph h drop q k v mask _ (getD_mem_of_lt _ [] i hi)
  · rw [getD_len_le _ _ _ (by omega),
      if_neg (by rw [← attnHeadContext_length dph h drop q k v mask]; omega)]
    rfl

/-! ## C3: masked key positions cannot influence the output -/

/-- C3. Masked key positions never influence attention output: in an
attention call (the post-projection pipeline of
`MultiHeadedAttention.forward`, dropout disabled) where key position `j` is
masked for every query, perturbing position `j`'s value vector by at most
`dv` per feature changes every output entry by at most
`(Σ |final weights row|) · exp(−1e20) · dv` — a numerically negligible
difference, because the masked score is replaced by the `−1e20` sentinel
before softmax.  (`hZ` says some score in each filled row is ≥ 0, so the
softmax normalizer is ≥ 1; without it, e.g. with every key masked, the
claim would fail.) -/
theorem masked_key_value_no_influence (heads dph : ℕ) (final : LinearCfg)
    (q k v v' : List (List ℝ)) (mask : List (List Bool)) (j : ℕ) (dv : ℝ)
    (hdv : 0 ≤ dv)
    (hvlen : v'.length = v.length) (hvk : v.length = k.length)
    (hrows : ∀ kk, kk ≠ j → v'.getD kk [] = v.getD kk [])
    (hdiff : ∀ c, |(v'.getD j []).getD c 0 - (v.getD j []).getD c 0| ≤ dv)
    (hmask : ∀ mrow ∈ mask, mrow.getD j false = true)
    (hZ : ∀ h, h < heads → ∀ frow ∈ maskedFill (attnHeadScores dph h q k) mask,
      (1 : ℝ) ≤ ((frow.map Real.exp).sum))
    (i c : ℕ) :
    |((attentionCore heads dph id final q k v' mask).getD i []).getD c 0
      - ((attentionCore heads dph id final q k v mask).getD i []).getD c 0|
      ≤ ((final.W.getD c []).map (fun t => |t|)).sum
        * (Real.exp (-(1e20 : ℝ)) * dv) := by
  have hM : 0 ≤ Real.exp (-(1e20 : ℝ)) * dv := mul_nonneg (Real.exp_pos _).le hdv
  have habs : 0 ≤ ((final.W.getD c []).map (fun t => |t|)).sum := by
    refine List.sum_nonneg ?_
    intro t ht
    obtain ⟨s, _, rfl⟩ := List.mem_map.mp ht
    exact abs_nonneg s
  have hRHS : 0 ≤ ((final.W.getD c []).map (fun t => |t|)).sum
      * (Real.exp (-(1e20 : ℝ)) * dv) := mul_nonneg habs hM
  have hstacklen : ((List.range heads).map
      (fun h => attnHeadContext dph h id q k v' mask)).length
      = ((List.range heads).map
        (fun h => attnHeadContext dph h id q k v mask)).length := by
    rw [List.length_map, List.length_map]
  have hrowc : ∀ n, (((List.range heads).map
      (fun h => attnHeadContext dph h id q k v' mask)).getD n []).length
      = (((List.range heads).map
        (fun h => attnHeadContext dph h id q k v mask)).getD n []).length := by
    intro n
    by_cases hn : n < heads
    · rw [rangeMap_getD [] _ heads n hn, rangeMap_getD [] _ heads n hn,
        attnHeadContext_length, attnHeadContext_length]
    · rw [getD_len_le ((List.range heads).map
          (fun h => attnHeadContext dph h id q k v' mask)) [] n
          (by rw [List.length_map, List.length_range]; omega),
        getD_len_le ((List.range heads).map
          (fun h => attnHeadContext dph h id q k v mask)) [] n
          (by rw [List.length_map, List.length_range]; omega)]
  have hrowlen : ∀ n i2, ((((List.range heads).map
      (fun h => attnHeadContext dph h id q k v' mask)).getD n []).getD i2 []).length
      = ((((List.range heads).map
        (fun h => attnHeadContext dph h id q k v mask)).getD n []).getD i2 []).length := by
    intro n i2
    by_cases hn : n < heads
    · rw [rangeMap_getD [] _ heads n hn, rangeMap_getD [] _ heads n hn,
        attnHeadContext_getD_len, attnHeadContext_getD_len]
    · rw [getD_len_le ((List.range heads).map
          (fun h => attnHeadContext dph h id q k v' mask)) [] n
          (by rw [List.length_map, List.length_range]; omega),
        getD_len_le ((List.range heads).map
          (fun h => attnHeadContext dph h id q k v mask)) [] n
          (by rw [List.length_map, List.length_range]; omega)]
  have hentry : ∀ n i2 f, |((((List.range heads).map
      (fun h => attnHeadContext dph h id q k v' mask)).getD n []).getD i2 []).getD f 0
      - ((((List.range heads).map
        (fun h => attnHeadContext dph h id q k v mask)).getD n []).getD i2 []).getD f 0|
      ≤ Real.exp (-(1e20 : ℝ)) * dv := by
    intro n i2 f
    by_cases hn : n < heads
    · rw [rangeMap_getD [] _ heads n hn, rangeMap_getD [] _ heads n hn]
      exact attnHeadContext_entry_diff dph n q k v v' mask j dv hdv hvlen hvk
        hrows hdiff hmask (hZ n hn) i2 f
    · rw [getD_len_le ((List.range heads).map
          (fun h => attnHeadContext dph h id q k v' mask)) [] n
          (by rw [List.length_map, List.length_range]; omega),
        getD_len_le ((List.range heads).map
          (fun h => attnHeadContext dph h id q k v mask)) [] n
          (by rw [List.length_map, List.length_range]; omega)]
      simpa using hM
  have hcomb := combineHeads_entry_diff q.length (Real.exp (-(1e20 : ℝ)) * dv) hM
    ((List.range heads).map (fun h => attnHeadContext dph h id q k v mask))
    ((List.range heads).map (fun h => attnHeadContext dph h id q k v' mask))
    hstacklen hrowc hrowlen hentry
  have hcl := combineHeads_length_eq q.length
    ((List.range heads).map (fun h => attnHeadContext dph h id q k v mask))
    ((List.range heads).map (fun h => attnHeadContext dph h id q k v' mask))
    hstacklen hrowc
  unfold attentionCore
  by_cases hi : i < (combineHeads q.length ((List.range heads).map
      (fun h => attnHeadContext dph h id q k v mask))).length
  · rw [map_getD_lt final.apply
      (combineHeads q.length ((List.range heads).map
        (fun h => attnHeadContext dph h id q k v' mask))) i [] []
      (by rw [hcl]; exact hi)]
    rw [map_getD_lt final.apply
      (combineHeads q.length ((List.range heads).map
        (fun h => attnHeadContext dph h id q k v mask))) i [] [] hi]
    unfold LinearCfg.apply
    rw [linearRow_getD, linearRow_getD]
    split
    · rw [add_sub_add_right_eq_sub]
      exact dotL_sub_bound_left (final.W.getD c []) _ _
        (Real.exp (-(1e20 : ℝ)) * dv) hM (fun f => hcomb i f)
    · simpa using hRHS
  · rw [getD_len_le ((combineHeads q.length ((List.range heads).map
        (fun h => attnHeadContext dph h id q k v' mask))).map final.apply)
        [] i (by rw [List.length_map, hcl]; omega)]
    rw [getD_len_le ((combineHeads q.length ((List.range heads).map
        (fun h => attnHeadContext dph h id q k v mask))).map final.apply)
        [] i (by rw [List.length_map]; omega)]
    simpa using hRHS

/-- Witness for C3: one head, `dim_per_head = 1`, identity-ish final layer,
one query, two keys; key position 1 is masked for the (single) query and its
value vector is perturbed from `[0]` to `[1]` (`dv = 1`). -/
theorem masked_key_value_no_influence_witness :
    |((attentionCore 1 1 id ⟨[[1]], [0]⟩ [[0]] [[0], [0]] [[0], [1]]
        [[false, true]]).getD 0 []).getD 0 0
      - ((attentionCore 1 1 id ⟨[[1]], [0]⟩ [[0]] [[0], [0]] [[0], [0]]
        [[false, true]]).getD 0 []).getD 0 0|
      ≤ (((⟨[[1]], [0]⟩ : LinearCfg).W.getD 0 []).map (fun t => |t|)).sum
        * (Real.exp (-(1e20 : ℝ)) * 1) := by
  refine masked_key_value_no_influence 1 1 ⟨[[1]], [0]⟩ [[0]] [[0], [0]]
    [[0], [0]] [[0], [1]] [[false, true]] 1 1 (by norm_num) (by simp) (by simp)
    ?_ ?_ ?_ ?_ 0 0
  · intro kk hkk
    rcases kk with _ | _ | kk
    · rfl
    · exact absurd rfl hkk
    · rfl
  · intro c
    rcases c with _ | c <;> simp
  · intro mrow hm
    rw [List.mem_singleton] at hm
    subst hm
    rfl
  · intro h hh frow hf
    have h0 : h = 0 := by omega
    subst h0
    simp [attnHeadScores, splitHeadSlice, maskedFill, matMulT, dotL] at hf
    subst hf
    simp
    have := Real.exp_pos (-(1e20 : ℝ))
    linarith [Real.exp_pos ((-1e20 : ℝ))]
